import Mathlib

/-!
Verification development for the mampy mesh-component library.

The embedding models `mampy.core.components.SingleIndexComponent` and its
collaborators: a `Component` is an element kind, a dagpath identity and a
finite index set; a `Mesh` packages the topology-provider queries the code
consumes (element counts, edge endpoints, per-face vertex/edge rings, UV
owners and shell ids, boundary flags, face adjacency, and the provider's
border-flag conversion output, kept opaque).  Fallible Maya plumbing
(`MSelectionList.getComponent(0)` on an empty list raises) is modelled with
`Except`.
-/

namespace Mampy

/-- Element kind: MFn.kMeshVertComponent / kMeshEdgeComponent /
kMeshPolygonComponent / kMeshMapComponent. -/
inductive Kind where
  | Vert : Kind
  | Edge : Kind
  | Face : Kind
  | Map : Kind
deriving DecidableEq

/-- A SingleIndexComponent: kind, dagpath identity (which mesh it is bound
to) and the index set held by the MFnSingleIndexedComponent. -/
structure Component where
  kind : Kind
  dag : Nat
  indices : Finset Nat

instance : DecidableEq Component := fun a b =>
  decidable_of_iff (a.kind = b.kind ∧ a.dag = b.dag ∧ a.indices = b.indices)
    (by cases a; cases b; simp [Component.mk.injEq])

/-- The mesh topology provider's queries, as consumed by the code.
`borderConvert` is the provider's `polyListComponentConversion`
output under the `border` flag, kept opaque (its exact semantics are the
documented unknown the code patches around). -/
structure Mesh where
  numVertices : Nat
  numEdges : Nat
  numPolygons : Nat
  numUVs : Nat
  edgeVerts : Nat → Nat × Nat
  faceVertList : Nat → List Nat
  faceEdgeList : Nat → List Nat
  uvOwner : Nat → Nat
  onBoundaryFaceB : Nat → Bool
  onBoundaryEdgeB : Nat → Bool
  faceAdj : Nat → Finset Nat
  uvShellIds : Nat → Nat
  uvShellCount : Nat
  borderConvert : Kind → Kind → Finset Nat → Finset Nat

/-- The ascending element list of a multiset of naturals, by insertion sort
(kernel-computable, unlike `Multiset.sort`). -/
def multisetSortedList (s : Multiset Nat) : List Nat :=
  Quot.liftOn s (fun l => l.insertionSort (fun a b => a ≤ b))
    (fun a b h =>
      List.eq_of_perm_of_sorted
        ((List.perm_insertionSort _ a).trans (h.trans (List.perm_insertionSort _ b).symm))
        (List.sorted_insertionSort _ a) (List.sorted_insertionSort _ b))

/-- `getElements()` of a component: its indices as an ascending list. -/
def finsetList (S : Finset Nat) : List Nat := multisetSortedList S.val

/-- Vertices of a face, as a set. -/
def faceVertSet (m : Mesh) (f : Nat) : Finset Nat := (m.faceVertList f).toFinset

/-- Edges of a face, as a set. -/
def faceEdgeSet (m : Mesh) (f : Nat) : Finset Nat := (m.faceEdgeList f).toFinset

/-- Both endpoints of every edge in `S`. -/
def endpointSet (m : Mesh) (S : Finset Nat) : Finset Nat :=
  S.biUnion (fun e => {(m.edgeVerts e).1, (m.edgeVerts e).2})

/-- UV points whose owning vertex lies in `V`. -/
def uvsOfVerts (m : Mesh) (V : Finset Nat) : Finset Nat :=
  (Finset.range m.numUVs).filter (fun u => m.uvOwner u ∈ V)

/-- Well-formedness of the face rings: each polygon has at least two ring
vertices and consecutive ring vertices are joined by one of the face's own
edges (a polygon is a closed ring of edges). -/
def Mesh.WF (m : Mesh) : Prop :=
  ∀ f, f < m.numPolygons →
    2 ≤ (m.faceVertList f).length ∧
    ∀ i, i + 1 < (m.faceVertList f).length →
      ∃ e ∈ m.faceEdgeList f,
        ((m.edgeVerts e).1 = (m.faceVertList f).getD i 0 ∧
          (m.edgeVerts e).2 = (m.faceVertList f).getD (i + 1) 0) ∨
        ((m.edgeVerts e).1 = (m.faceVertList f).getD (i + 1) 0 ∧
          (m.edgeVerts e).2 = (m.faceVertList f).getD i 0)

/-- `polyListComponentConversion` without flags: plain adjacency image. -/
def convPlain (m : Mesh) : Kind → Kind → Finset Nat → Finset Nat
  | Kind.Vert, Kind.Vert, S => S
  | Kind.Vert, Kind.Edge, S =>
    (Finset.range m.numEdges).filter
      (fun e => (m.edgeVerts e).1 ∈ S ∨ (m.edgeVerts e).2 ∈ S)
  | Kind.Vert, Kind.Face, S =>
    (Finset.range m.numPolygons).filter (fun f => (faceVertSet m f ∩ S).Nonempty)
  | Kind.Vert, Kind.Map, S => uvsOfVerts m S
  | Kind.Edge, Kind.Vert, S => endpointSet m S
  | Kind.Edge, Kind.Edge, S => S
  | Kind.Edge, Kind.Face, S =>
    (Finset.range m.numPolygons).filter (fun f => (faceEdgeSet m f ∩ S).Nonempty)
  | Kind.Edge, Kind.Map, S => uvsOfVerts m (endpointSet m S)
  | Kind.Face, Kind.Vert, S => S.biUnion (faceVertSet m)
  | Kind.Face, Kind.Edge, S => S.biUnion (faceEdgeSet m)
  | Kind.Face, Kind.Face, S => S
  | Kind.Face, Kind.Map, S => uvsOfVerts m (S.biUnion (faceVertSet m))
  | Kind.Map, Kind.Vert, S => S.image m.uvOwner
  | Kind.Map, Kind.Edge, S =>
    (Finset.range m.numEdges).filter
      (fun e => (m.edgeVerts e).1 ∈ S.image m.uvOwner ∨ (m.edgeVerts e).2 ∈ S.image m.uvOwner)
  | Kind.Map, Kind.Face, S =>
    (Finset.range m.numPolygons).filter
      (fun f => (faceVertSet m f ∩ S.image m.uvOwner).Nonempty)
  | Kind.Map, Kind.Map, S => S

/-- `polyListComponentConversion` with `internal=True`: the converted
elements must be entirely contained in the source set.  It only
differs from the plain conversion when the target is a higher-order
element (edge or face). -/
def convInternal (m : Mesh) : Kind → Kind → Finset Nat → Finset Nat
  | Kind.Vert, Kind.Edge, S =>
    (Finset.range m.numEdges).filter
      (fun e => (m.edgeVerts e).1 ∈ S ∧ (m.edgeVerts e).2 ∈ S)
  | Kind.Vert, Kind.Face, S =>
    (Finset.range m.numPolygons).filter (fun f => faceVertSet m f ⊆ S)
  | Kind.Edge, Kind.Face, S =>
    (Finset.range m.numPolygons).filter (fun f => faceEdgeSet m f ⊆ S)
  | Kind.Map, Kind.Edge, S =>
    (Finset.range m.numEdges).filter
      (fun e => (m.edgeVerts e).1 ∈ S.image m.uvOwner ∧ (m.edgeVerts e).2 ∈ S.image m.uvOwner)
  | Kind.Map, Kind.Face, S =>
    (Finset.range m.numPolygons).filter (fun f => faceVertSet m f ⊆ S.image m.uvOwner)
  | src, tgt, S => convPlain m src tgt S

/-- The provider call `cmds.polyListComponentConversion(strings, **kwargs)`
with the `internal` / `border` flags of the keyword arguments. -/
def convertElements (m : Mesh) (src tgt : Kind) (S : Finset Nat)
    (internal border : Bool) : Finset Nat :=
  if border = true then m.borderConvert src tgt S
  else if internal = true then convInternal m src tgt S
  else convPlain m src tgt S

/-- `AbstractComponent.convert_to` / `SingleIndexComponent.convert_to`
(components.py:93-100, 388-396): the conversion strings are loaded into a
fresh `MSelectionList` and `sl.getComponent(0)` is taken; on an empty
conversion result the list is empty and `getComponent(0)` raises. -/
def convert_to (m : Mesh) (c : Component) (tgt : Kind)
    (internal border : Bool) : Except String Component :=
  let r := convertElements m c.kind tgt c.indices internal border
  if r = ∅ then Except.error "getComponent: kInvalidParameter (index out of range)"
  else Except.ok ⟨tgt, c.dag, r⟩

instance {ε α : Type} [DecidableEq ε] [DecidableEq α] : DecidableEq (Except ε α) :=
  fun a b =>
    match a, b with
    | Except.error x, Except.error y =>
      decidable_of_iff (x = y)
        ⟨fun h => by rw [h], fun h => by cases h; rfl⟩
    | Except.error _, Except.ok _ => isFalse (by intro hc; cases hc)
    | Except.ok _, Except.error _ => isFalse (by intro hc; cases hc)
    | Except.ok x, Except.ok y =>
      decidable_of_iff (x = y)
        ⟨fun h => by rw [h], fun h => by cases h; rfl⟩

/-- Sequential mapping in the `Except` monad, as the python loops perform it:
the first raised error aborts the whole call. -/
def mapExcept (f : α → Except String β) : List α → Except String (List β)
  | [] => Except.ok []
  | a :: as =>
    match f a with
    | Except.error e => Except.error e
    | Except.ok b =>
      match mapExcept f as with
      | Except.error e => Except.error e
      | Except.ok bs => Except.ok (b :: bs)

/-- `is_border` on Face kind: `self.mesh.onBoundary(index)`. -/
def is_border_face (m : Mesh) (f : Nat) : Bool := m.onBoundaryFaceB f

/-- `is_border` on Edge kind: `cmds.polySelect(dagpath, q=True, edgeBorder=index)
or False` — truthy exactly when the edge lies on a mesh border. -/
def is_border_edge (m : Mesh) (e : Nat) : Bool := m.onBoundaryEdgeB e

/-- The loop of `SingleIndexComponent.to_edge` (components.py:371-379): for
each face of the component that is itself on the mesh boundary, re-derive the
single face's edges (`self.new().add(face).to_edge()`, a plain conversion)
and keep those that are mesh-border edges. -/
def collectBorderEdges (m : Mesh) (dag : Nat) : List Nat → Except String (Finset Nat)
  | [] => Except.ok ∅
  | f :: fs =>
    if is_border_face m f = true then
      match convert_to m ⟨Kind.Face, dag, {f}⟩ Kind.Edge false false with
      | Except.error e => Except.error e
      | Except.ok nEdge =>
        match collectBorderEdges m dag fs with
        | Except.error e => Except.error e
        | Except.ok rest =>
          Except.ok ((nEdge.indices.filter (fun i => is_border_edge m i = true)) ∪ rest)
    else collectBorderEdges m dag fs

/-- `SingleIndexComponent.to_edge` (components.py:366-380).  `borderPresent`
models `'border' in kwargs` (a key-presence test); the recovered border
edges are added onto the provider's conversion output. -/
def to_edge (m : Mesh) (c : Component)
    (internal border borderPresent : Bool) : Except String Component :=
  match convert_to m c Kind.Edge internal border with
  | Except.error e => Except.error e
  | Except.ok converted =>
    if c.kind = Kind.Face ∧ borderPresent = true then
      match collectBorderEdges m c.dag (finsetList c.indices) with
      | Except.error e => Except.error e
      | Except.ok borderEdges =>
        Except.ok ⟨Kind.Edge, c.dag, converted.indices ∪ borderEdges⟩
    else Except.ok converted

/-- `SingleIndexComponent.is_border` (components.py:308-321): provider
boundary query for Face and Edge kinds; for Vertex/UV kinds the single
element is converted to edges (plain `to_edge`, no flags) and each resulting
edge is border-tested. -/
def is_border (m : Mesh) (c : Component) (index : Nat) : Except String Bool :=
  match c.kind with
  | Kind.Face => Except.ok (is_border_face m index)
  | Kind.Edge => Except.ok (is_border_edge m index)
  | _ =>
    match to_edge m ⟨c.kind, c.dag, {index}⟩ false false false with
    | Except.error e => Except.error e
    | Except.ok edge =>
      Except.ok ((finsetList edge.indices).any (fun i => is_border_edge m i))

/-- The claim's reading of `is_border` for Vertex/UV kinds, following the
spec's words: the single element converted to Edge with `internal=true`,
then any-border over the result.  Declared for comparison with `is_border`. -/
def is_border_claim (m : Mesh) (c : Component) (index : Nat) : Bool :=
  (finsetList (convInternal m c.kind Kind.Edge {index})).any
    (fun i => is_border_edge m i)

/-- Element count of a kind: numVertices / numEdges / numPolygons / numUVs. -/
def kindCount (m : Mesh) : Kind → Nat
  | Kind.Vert => m.numVertices
  | Kind.Edge => m.numEdges
  | Kind.Face => m.numPolygons
  | Kind.Map => m.numUVs

/-- `SingleIndexComponent.get_complete` (components.py:250-259):
`setCompleteData(count)` holds every index below the kind's count. -/
def get_complete (m : Mesh) (c : Component) : Component :=
  ⟨c.kind, c.dag, Finset.range (kindCount m c.kind)⟩

/-- `SingleIndexComponent.is_complete` (components.py:323-329). -/
def is_complete (m : Mesh) (c : Component) : Bool :=
  kindCount m c.kind == c.indices.card

/-- `SingleIndexComponent.toggle` (components.py:398-408):
`MSelectionList.toggle` takes the symmetric difference of the index sets;
with `other=None` the complete component is used; on a dagpath mismatch the
code executes `return logger.warn(...)`, whose value is `None`. -/
def toggle (m : Mesh) (c : Component) (other : Option Component) : Option Component :=
  match other with
  | none => some ⟨c.kind, c.dag, symmDiff c.indices (get_complete m c).indices⟩
  | some o =>
    if c.dag = o.dag then some ⟨c.kind, c.dag, symmDiff c.indices o.indices⟩
    else none

/-- The shell ids wanted by `SingleIndexComponent.map_shells`
(components.py:206-211): every id when the component is complete, otherwise
the ids carried by the component's own indices. -/
def map_shells_wanted (m : Mesh) (c : Component) : Finset Nat :=
  if is_complete m c = true then Finset.range m.uvShellCount
  else c.indices.image m.uvShellIds

/-- One entry of `SingleIndexComponent.map_shells` (components.py:213-218):
the whole-mesh enumeration of `getUvShellsIds()` collects every UV index of
the mesh carrying the wanted id, not only the component's own indices. -/
def map_shells_entry (m : Mesh) (c : Component) (sid : Nat) : Component :=
  ⟨c.kind, c.dag, (Finset.range m.numUVs).filter (fun u => m.uvShellIds u = sid)⟩

/-- `SingleIndexComponent.map_shells` as an association list id ↦ component. -/
def map_shells (m : Mesh) (c : Component) : List (Nat × Component) :=
  (finsetList (map_shells_wanted m c)).map (fun sid => (sid, map_shells_entry m c sid))

/-- One round of whole-mesh face-adjacency growth. -/
def floodStep (m : Mesh) (S : Finset Nat) : Finset Nat :=
  S ∪ S.biUnion m.faceAdj

/-- Iterated adjacency growth. -/
def floodIter (m : Mesh) : Nat → Finset Nat → Finset Nat
  | 0, S => S
  | Nat.succ n, S => floodIter m n (floodStep m S)

/-- `cmds.polySelect(dag, q=True, ets=index, ns=True)`: the faces of the
whole-mesh shell containing the given face (extend-to-shell is not
restricted to any selection). -/
def polySelectETS (m : Mesh) (f : Nat) : Finset Nat :=
  floodIter m m.numPolygons {f}

/-- The `dfs` loop inside `SingleIndexComponent.mesh_shells`
(components.py:222-230): pop the stack, skip seen faces, otherwise query the
whole shell of the popped face, mark it seen, push the still-unseen control
faces, and yield the shell.  The python list's tail-end push/pop pair is
represented head-first; fuel bounds the loop. -/
def dfsLoop (m : Mesh) (control : Finset Nat) :
    Nat → List Nat → Finset Nat → List (Finset Nat)
  | 0, _, _ => []
  | Nat.succ _, [], _ => []
  | Nat.succ fuel, x :: stack, seen =>
    if x ∈ seen then dfsLoop m control fuel stack seen
    else
      let shell := polySelectETS m x
      let seen' := seen ∪ shell
      shell :: dfsLoop m control fuel
        ((finsetList (control \ seen')).reverse ++ stack) seen'

/-- The face-level shells discovered by `mesh_shells`, in discovery order:
the dfs starts from the first converted face index. -/
def mesh_shells_faces (m : Mesh) (F : Finset Nat) : List (Finset Nat) :=
  match finsetList F with
  | [] => []
  | start :: _ => dfsLoop m F (F.card * (F.card + 1) + 2) [start] ∅

/-- `SingleIndexComponent.mesh_shells` (components.py:220-240): convert to
faces, run the dfs from the first face index, and convert each discovered
shell back to the component's own kind when that kind is not Face. -/
def mesh_shells (m : Mesh) (c : Component) : Except String (List Component) :=
  match convert_to m c Kind.Face false false with
  | Except.error e => Except.error e
  | Except.ok faces =>
    mapExcept
      (fun s =>
        if c.kind = Kind.Face then Except.ok (⟨Kind.Face, c.dag, s⟩ : Component)
        else convert_to m ⟨Kind.Face, c.dag, s⟩ c.kind false false)
      (mesh_shells_faces m faces.indices)

/-- One `for i, item in enumerate(component)` sweep of the inner `dfs` of
`get_connected_components` (components.py:274-284): each still-unclaimed
item meeting the growing node is claimed and unioned in; the third result
reports whether the sweep claimed anything. -/
def passAux : List (Finset Nat × Bool) → Finset Nat →
    List (Finset Nat × Bool) × Finset Nat × Bool
  | [], node => ([], node, false)
  | p :: ps, node =>
    if p.2 = false ∧ (node ∩ p.1).Nonempty then
      ((p.1, true) :: (passAux ps (node ∪ p.1)).1,
        (passAux ps (node ∪ p.1)).2.1, true)
    else
      (p :: (passAux ps node).1, (passAux ps node).2.1, (passAux ps node).2.2)

/-- Number of unclaimed items. -/
def countUntaken (l : List (Finset Nat × Bool)) : Nat :=
  l.countP (fun p => !p.2)

/-- The `while True` growth loop of `dfs`: sweep until a sweep claims
nothing.  Each claiming sweep lowers `countUntaken`, so fuel
`length + 1` always reaches the fixpoint. -/
def growLoop : Nat → List (Finset Nat × Bool) → Finset Nat →
    List (Finset Nat × Bool) × Finset Nat
  | 0, l, node => (l, node)
  | Nat.succ fuel, l, node =>
    if (passAux l node).2.2 = true then
      growLoop fuel (passAux l node).1 (passAux l node).2.1
    else ((passAux l node).1, (passAux l node).2.1)

/-- The outer `for i, node in enumerate(component)` loop of
`connected_vert_indices` (components.py:286-289): each unclaimed item seeds
one growth run and yields the grown vertex set. -/
def gatherAux : Nat → List (Finset Nat × Bool) → Nat → List (Finset Nat)
  | 0, _, _ => []
  | Nat.succ fuel, l, k =>
    match l.get? k with
    | none => []
    | some p =>
      if p.2 = true then gatherAux fuel l (k + 1)
      else
        (growLoop (l.length + 1) (l.set k (p.1, true)) p.1).2 ::
          gatherAux fuel (growLoop (l.length + 1) (l.set k (p.1, true)) p.1).1 (k + 1)

/-- The connected vertex groups grown from the bucketed items. -/
def connectedGroups (items : List (Finset Nat)) : List (Finset Nat) :=
  gatherAux (items.length + 1) (items.map (fun it => (it, false))) 0

/-- The edge-endpoint pairs `(mesh.getEdgeVertices(e) for e in component.indices)`
(components.py:301). -/
def edgePairs (m : Mesh) (E : Finset Nat) : List (Nat × Nat) :=
  (finsetList E).map m.edgeVerts

/-- One bucket of the `index_vert_map` defaultdict (components.py:302-304):
all endpoint vertices of the edges whose first endpoint is `k`. -/
def bucketFor (pairs : List (Nat × Nat)) (k : Nat) : Finset Nat :=
  (pairs.filter (fun p => p.1 = k)).foldl (fun s p => s ∪ {p.1, p.2}) ∅

/-- `index_vert_map.values()`: one bucket per distinct first endpoint. -/
def indexVertMap (pairs : List (Nat × Nat)) : List (Finset Nat) :=
  ((pairs.map Prod.fst).dedup).map (bucketFor pairs)

/-- The edge-canonicalisation prologue of `get_connected_components`
(components.py:292-297): Edge components are used as-is; Vertex/UV
components convert to edges with `internal=True`; Face components convert
plainly. -/
def canonicalEdgeComponent (m : Mesh) (c : Component) : Except String Component :=
  if c.kind = Kind.Edge then Except.ok c
  else if c.kind = Kind.Vert ∨ c.kind = Kind.Map then to_edge m c true false false
  else to_edge m c false false false

/-- `get_return_list` (components.py:263-271): a grown vertex group becomes
a MeshVert component and, when `convert` is set, is converted back to the
source kind — with `internal=True` for Edge/Face sources. -/
def groupToComponent (m : Mesh) (c : Component) (convert : Bool)
    (g : Finset Nat) : Except String Component :=
  if convert = true then
    if c.kind = Kind.Edge ∨ c.kind = Kind.Face then
      convert_to m ⟨Kind.Vert, c.dag, g⟩ c.kind true false
    else convert_to m ⟨Kind.Vert, c.dag, g⟩ c.kind false false
  else Except.ok ⟨Kind.Vert, c.dag, g⟩

/-- `SingleIndexComponent.get_connected_components` (components.py:261-306). -/
def get_connected_components (m : Mesh) (c : Component) (convert : Bool) :
    Except String (List Component) :=
  match canonicalEdgeComponent m c with
  | Except.error e => Except.error e
  | Except.ok comp =>
    mapExcept (groupToComponent m c convert)
      (connectedGroups (indexVertMap (edgePairs m comp.indices)))

/-- The claim's canonical edge set: the component converted to Edge kind,
`internal=true` for Vertex/UV sources, plain otherwise.  Stated from the
spec's words for comparison with the code's output. -/
def canonicalEdgeSet (m : Mesh) (c : Component) : Finset Nat :=
  if c.kind = Kind.Edge then c.indices
  else if c.kind = Kind.Vert ∨ c.kind = Kind.Map then
    convInternal m c.kind Kind.Edge c.indices
  else convPlain m c.kind Kind.Edge c.indices

/-- The claim's back-conversion of the canonical edge set to the original
kind (`internal=true` for Edge/Face targets, as the group conversion does). -/
def convertBackFromEdge (m : Mesh) (c : Component) (E : Finset Nat) : Finset Nat :=
  if c.kind = Kind.Edge ∨ c.kind = Kind.Face then convInternal m Kind.Edge c.kind E
  else convPlain m Kind.Edge c.kind E

/-- Union of a list of index sets. -/
def unionFinsets (l : List (Finset Nat)) : Finset Nat :=
  l.foldr (fun s t => s ∪ t) ∅

/-- Union of the index sets of a list of components. -/
def unionIndices (l : List Component) : Finset Nat :=
  l.foldr (fun c t => c.indices ∪ t) ∅

/-- The Mampy error raised by `from_ls` when ordered selections are
requested without the capability (exceptions.py:19). -/
inductive LsError where
  | orderedSelectionsNotSet : LsError
deriving DecidableEq

/-- The keyword arguments of `from_ls` that matter to its control flow: the
presence of each of the four ordered-selection keys, and the value of an
explicit `merge` key when present. -/
structure LsKw where
  fl : Bool
  flatten : Bool
  os : Bool
  orderedSelection : Bool
  merge : Option Bool
deriving DecidableEq

/-- `need_ordered_selection_set` (core/utils.py:46-47): any of the four
ordered-selection keys is present (their values are not inspected). -/
def need_ordered_selection_set (kw : LsKw) : Bool :=
  kw.fl || kw.flatten || kw.os || kw.orderedSelection

/-- `AbstractMListFactory.from_ls` (listadapters.py:45-61), reduced to its
control flow: `trackOrder` is the externally tracked
`cmds.selectPref(trackSelectionOrder=True)` capability; the result is the
merge flag the construction uses. -/
def from_ls (trackOrder : Bool) (kw : LsKw) : Except LsError Bool :=
  if need_ordered_selection_set kw = true then
    if trackOrder = false then Except.error LsError.orderedSelectionsNotSet
    else Except.ok (kw.merge.getD false)
  else Except.ok (kw.merge.getD true)

/-- The backing MObject of a SingleIndexComponent as `__len__`/`__nonzero__`
observe it: either null (no component object, or `MObject.isNull()`), or a
valid object holding a list of elements. -/
inductive MObjState where
  | null : MObjState
  | valid : List Nat → MObjState
deriving DecidableEq

/-- `self._indexed.elementCount`: raises RuntimeError on a null object. -/
def elementCount : MObjState → Except String Nat
  | MObjState.null => Except.error "RuntimeError: (kFailure): Object does not exist"
  | MObjState.valid es => Except.ok es.length

/-- `SingleIndexComponent.__len__` (components.py:132-136): the element
count, with the RuntimeError caught and turned into 0. -/
def componentLen (s : MObjState) : Nat :=
  match elementCount s with
  | Except.error _ => 0
  | Except.ok n => n

/-- `SingleIndexComponent.__nonzero__` (components.py:150-154). -/
def componentNonzero (s : MObjState) : Bool :=
  match s with
  | MObjState.null => false
  | MObjState.valid _ => !(componentLen s == 0)

/-! ### Utility lemmas -/

theorem finsetList_coe (S : Finset Nat) : (finsetList S : Multiset Nat) = S.val := by
  rcases S with ⟨ms, hms⟩
  induction ms using Quot.ind with
  | _ l => exact Quotient.sound (List.perm_insertionSort _ _)

theorem mem_finsetList {a : Nat} {S : Finset Nat} : a ∈ finsetList S ↔ a ∈ S := by
  rw [← Multiset.mem_coe, finsetList_coe]
  rfl

theorem finsetList_eq_nil {S : Finset Nat} : finsetList S = [] ↔ S = ∅ := by
  constructor
  · intro h
    ext a
    simp only [Finset.not_mem_empty, iff_false]
    intro ha
    have := mem_finsetList.mpr ha
    rw [h] at this
    exact (List.not_mem_nil a) this
  · intro h
    subst h
    cases hl : finsetList (∅ : Finset Nat) with
    | nil => rfl
    | cons x xs =>
      have : x ∈ finsetList (∅ : Finset Nat) := by rw [hl]; exact List.mem_cons_self x xs
      exact absurd (mem_finsetList.mp this) (Finset.not_mem_empty x)

theorem finsetList_toFinset (S : Finset Nat) : (finsetList S).toFinset = S := by
  ext a
  rw [List.mem_toFinset, mem_finsetList]

theorem mem_unionFinsets {x : Nat} {l : List (Finset Nat)} :
    x ∈ unionFinsets l ↔ ∃ s ∈ l, x ∈ s := by
  induction l with
  | nil => simp [unionFinsets]
  | cons s t ih =>
    simp only [unionFinsets, List.foldr_cons, Finset.mem_union] at *
    rw [ih]
    simp

theorem mem_unionIndices {x : Nat} {l : List Component} :
    x ∈ unionIndices l ↔ ∃ c ∈ l, x ∈ c.indices := by
  induction l with
  | nil => simp [unionIndices]
  | cons c t ih =>
    simp only [unionIndices, List.foldr_cons, Finset.mem_union] at *
    rw [ih]
    simp

theorem mapExcept_ok_forall2 {α β : Type} {f : α → Except String β} :
    ∀ {l : List α} {l' : List β}, mapExcept f l = Except.ok l' →
      List.Forall₂ (fun a b => f a = Except.ok b) l l' := by
  intro l
  induction l with
  | nil =>
    intro l' h
    simp only [mapExcept] at h
    cases h
    exact List.Forall₂.nil
  | cons a as ih =>
    intro l' h
    simp only [mapExcept] at h
    cases hfa : f a with
    | error e => rw [hfa] at h; cases h
    | ok b =>
      rw [hfa] at h
      cases hrest : mapExcept f as with
      | error e => rw [hrest] at h; cases h
      | ok bs =>
        rw [hrest] at h
        cases h
        exact List.Forall₂.cons hfa (ih hrest)

theorem forall2_mem_left {α β : Type} {R : α → β → Prop} :
    ∀ {l1 : List α} {l2 : List β}, List.Forall₂ R l1 l2 → ∀ {p}, p ∈ l1 →
      ∃ q ∈ l2, R p q := by
  intro l1 l2 h
  induction h with
  | nil => intro p hp; cases hp
  | cons hr _ ih =>
    intro p hp
    rcases List.mem_cons.mp hp with h1 | h2
    · subst h1; exact ⟨_, List.mem_cons_self _ _, hr⟩
    · rcases ih h2 with ⟨q, hq, hrq⟩
      exact ⟨q, List.mem_cons_of_mem _ hq, hrq⟩

theorem forall2_mem_right {α β : Type} {R : α → β → Prop} :
    ∀ {l1 : List α} {l2 : List β}, List.Forall₂ R l1 l2 → ∀ {q}, q ∈ l2 →
      ∃ p ∈ l1, R p q := by
  intro l1 l2 h
  induction h with
  | nil => intro q hq; cases hq
  | cons hr _ ih =>
    intro q hq
    rcases List.mem_cons.mp hq with h1 | h2
    · subst h1; exact ⟨_, List.mem_cons_self _ _, hr⟩
    · rcases ih h2 with ⟨p, hp, hrp⟩
      exact ⟨p, List.mem_cons_of_mem _ hp, hrp⟩

theorem forall2_comp {α : Type} {R S T : α → α → Prop}
    (h : ∀ a b c, R a b → S b c → T a c) :
    ∀ {l1 l2 l3 : List α}, List.Forall₂ R l1 l2 → List.Forall₂ S l2 l3 →
      List.Forall₂ T l1 l3 := by
  intro l1 l2 l3 h12
  induction h12 generalizing l3 with
  | nil =>
    intro h23
    cases h23
    exact List.Forall₂.nil
  | cons hr _ ih =>
    intro h23
    cases h23 with
    | cons hs htail => exact List.Forall₂.cons (h _ _ _ hr hs) (ih htail)

theorem forall2_get? {α β : Type} {R : α → β → Prop} :
    ∀ {l1 : List α} {l2 : List β}, List.Forall₂ R l1 l2 →
      ∀ {j : Nat} {q}, l2[j]? = some q → ∃ p, l1[j]? = some p ∧ R p q := by
  intro l1 l2 h
  induction h with
  | nil => intro j q hq; simp at hq
  | cons hr _ ih =>
    intro j q hq
    cases j with
    | zero =>
      rw [List.getElem?_cons_zero] at hq
      cases hq
      exact ⟨_, List.getElem?_cons_zero, hr⟩
    | succ j' =>
      rw [List.getElem?_cons_succ] at hq
      rw [List.getElem?_cons_succ]
      exact ih hq

theorem pairwise_of_forall2 {α β : Type} {R : α → β → Prop}
    {S : α → α → Prop} {T : β → β → Prop}
    (hcomp : ∀ a a' b b', R a b → R a' b' → S a a' → T b b') :
    ∀ {l : List α} {l' : List β}, List.Forall₂ R l l' →
      List.Pairwise S l → List.Pairwise T l' := by
  intro l l' hf
  induction hf with
  | nil => intro _; exact List.Pairwise.nil
  | cons hr htail ih =>
    intro hp
    cases hp with
    | cons hhead hrest =>
      refine List.Pairwise.cons ?_ (ih hrest)
      intro b' hb'
      rcases forall2_mem_right htail hb' with ⟨a', ha', hra'⟩
      exact hcomp _ _ _ _ hr hra' (hhead a' ha')

/-! ### Lemmas about the connected-grouping sweep -/

/-- Union of the still-unclaimed items. -/
def unionUntaken : List (Finset Nat × Bool) → Finset Nat
  | [] => ∅
  | p :: ps => (if p.2 = true then ∅ else p.1) ∪ unionUntaken ps

theorem unionUntaken_mem_subset {l : List (Finset Nat × Bool)} {p : Finset Nat × Bool}
    (hp : p ∈ l) (hfalse : p.2 = false) : p.1 ⊆ unionUntaken l := by
  induction l with
  | nil => cases hp
  | cons q qs ih =>
    rcases List.mem_cons.mp hp with h1 | h2
    · subst h1
      simp only [unionUntaken, hfalse]
      simp
    · exact (ih h2).trans (by simp [unionUntaken])

theorem unionUntaken_eq_empty {l : List (Finset Nat × Bool)}
    (h : ∀ p ∈ l, p.2 = true) : unionUntaken l = ∅ := by
  induction l with
  | nil => rfl
  | cons q qs ih =>
    simp only [unionUntaken, h q (List.mem_cons_self q qs), if_true]
    rw [ih (fun p hp => h p (List.mem_cons_of_mem q hp))]
    simp

theorem passAux_node_mono (l : List (Finset Nat × Bool)) (node : Finset Nat) :
    node ⊆ (passAux l node).2.1 := by
  induction l generalizing node with
  | nil => simp [passAux]
  | cons p ps ih =>
    by_cases h : p.2 = false ∧ (node ∩ p.1).Nonempty
    · rw [passAux, if_pos h]
      exact Finset.subset_union_left.trans (ih (node ∪ p.1))
    · rw [passAux, if_neg h]
      exact ih node

theorem passAux_conserved (l : List (Finset Nat × Bool)) (node : Finset Nat) :
    (passAux l node).2.1 ∪ unionUntaken (passAux l node).1 = node ∪ unionUntaken l := by
  induction l generalizing node with
  | nil => simp [passAux, unionUntaken]
  | cons p ps ih =>
    by_cases h : p.2 = false ∧ (node ∩ p.1).Nonempty
    · rw [passAux, if_pos h]
      have hx := Finset.ext_iff.mp (ih (node ∪ p.1))
      ext a
      have ha := hx a
      simp only [unionUntaken, h.1, Finset.mem_union, Finset.not_mem_empty,
        if_true, if_false, Bool.false_eq_true] at ha ⊢
      tauto
    · rw [passAux, if_neg h]
      have hx := Finset.ext_iff.mp (ih node)
      ext a
      have ha := hx a
      simp only [unionUntaken, Finset.mem_union] at ha ⊢
      tauto

theorem passAux_no_update (l : List (Finset Nat × Bool)) (node : Finset Nat)
    (h : (passAux l node).2.2 = false) :
    (passAux l node).1 = l ∧ (passAux l node).2.1 = node := by
  induction l generalizing node with
  | nil => simp [passAux]
  | cons p ps ih =>
    by_cases hc : p.2 = false ∧ (node ∩ p.1).Nonempty
    · rw [passAux, if_pos hc] at h
      simp at h
    · rw [passAux, if_neg hc] at h ⊢
      rcases ih node h with ⟨h1, h2⟩
      exact ⟨by rw [h1], h2⟩

theorem passAux_fix (l : List (Finset Nat × Bool)) (node : Finset Nat)
    (h : (passAux l node).2.2 = false) : Disjoint node (unionUntaken l) := by
  induction l generalizing node with
  | nil => simp [unionUntaken]
  | cons p ps ih =>
    by_cases hc : p.2 = false ∧ (node ∩ p.1).Nonempty
    · rw [passAux, if_pos hc] at h
      simp at h
    · rw [passAux, if_neg hc] at h
      have htail := ih node h
      rcases Bool.eq_false_or_eq_true p.2 with hb | hb
      · simpa [unionUntaken, hb] using htail
      · have hnon : ¬ (node ∩ p.1).Nonempty := fun hn => hc ⟨hb, hn⟩
        rw [Finset.not_nonempty_iff_eq_empty] at hnon
        have hdisj : Disjoint node p.1 := Finset.disjoint_iff_inter_eq_empty.mpr hnon
        simp [unionUntaken, hb, Finset.disjoint_union_right, hdisj, htail]

theorem countUntaken_cons (p : Finset Nat × Bool) (l : List (Finset Nat × Bool)) :
    countUntaken (p :: l) = (if p.2 = true then 0 else 1) + countUntaken l := by
  cases hp : p.2 <;> simp [countUntaken, List.countP_cons, hp, Nat.add_comm]

theorem passAux_forall2 (l : List (Finset Nat × Bool)) (node : Finset Nat) :
    List.Forall₂ (fun p q : Finset Nat × Bool =>
      p.1 = q.1 ∧ (p.2 = true → q.2 = true) ∧
        (q.2 = true → p.2 = true ∨ p.1 ⊆ (passAux l node).2.1))
      l (passAux l node).1 := by
  induction l generalizing node with
  | nil => exact List.Forall₂.nil
  | cons p ps ih =>
    by_cases hc : p.2 = false ∧ (node ∩ p.1).Nonempty
    · simp only [passAux, if_pos hc]
      refine List.Forall₂.cons ⟨rfl, fun h => rfl, fun _ => Or.inr ?_⟩ ?_
      · exact Finset.subset_union_right.trans (passAux_node_mono ps (node ∪ p.1))
      · refine (ih (node ∪ p.1)).imp ?_
        intro a b hab
        exact ⟨hab.1, hab.2.1, hab.2.2⟩
    · simp only [passAux, if_neg hc]
      refine List.Forall₂.cons ⟨rfl, fun h => h, fun h => Or.inl h⟩ ?_
      refine (ih node).imp ?_
      intro a b hab
      exact ⟨hab.1, hab.2.1, hab.2.2⟩

theorem passAux_count_le (l : List (Finset Nat × Bool)) (node : Finset Nat) :
    countUntaken (passAux l node).1 ≤ countUntaken l := by
  induction l generalizing node with
  | nil => simp [passAux]
  | cons p ps ih =>
    by_cases hc : p.2 = false ∧ (node ∩ p.1).Nonempty
    · have h2 : (if ((p.1, true) : Finset Nat × Bool).2 = true then 0 else 1) = 0 := by simp
      have h3 : (if p.2 = true then 0 else 1) = 1 := by simp [hc.1]
      rw [passAux, if_pos hc, countUntaken_cons, countUntaken_cons, h2, h3]
      have := ih (node ∪ p.1)
      omega
    · rw [passAux, if_neg hc, countUntaken_cons, countUntaken_cons]
      have := ih node
      omega

theorem passAux_count_lt (l : List (Finset Nat × Bool)) (node : Finset Nat)
    (h : (passAux l node).2.2 = true) :
    countUntaken (passAux l node).1 < countUntaken l := by
  induction l generalizing node with
  | nil => simp [passAux] at h
  | cons p ps ih =>
    by_cases hc : p.2 = false ∧ (node ∩ p.1).Nonempty
    · have h2 : (if ((p.1, true) : Finset Nat × Bool).2 = true then 0 else 1) = 0 := by simp
      have h3 : (if p.2 = true then 0 else 1) = 1 := by simp [hc.1]
      rw [passAux, if_pos hc, countUntaken_cons, countUntaken_cons, h2, h3]
      have := passAux_count_le ps (node ∪ p.1)
      omega
    · rw [passAux, if_neg hc] at h
      have := ih node h
      rw [passAux, if_neg hc, countUntaken_cons, countUntaken_cons]
      omega

theorem growLoop_node_mono (fuel : Nat) (l : List (Finset Nat × Bool)) (node : Finset Nat) :
    node ⊆ (growLoop fuel l node).2 := by
  induction fuel generalizing l node with
  | zero => exact Finset.Subset.refl node
  | succ fuel ih =>
    by_cases hu : (passAux l node).2.2 = true
    · rw [growLoop, if_pos hu]
      exact (passAux_node_mono l node).trans (ih _ _)
    · rw [growLoop, if_neg hu]
      exact passAux_node_mono l node

theorem growLoop_conserved (fuel : Nat) (l : List (Finset Nat × Bool)) (node : Finset Nat) :
    (growLoop fuel l node).2 ∪ unionUntaken (growLoop fuel l node).1 =
      node ∪ unionUntaken l := by
  induction fuel generalizing l node with
  | zero => rfl
  | succ fuel ih =>
    by_cases hu : (passAux l node).2.2 = true
    · rw [growLoop, if_pos hu]
      rw [ih _ _]
      exact passAux_conserved l node
    · rw [growLoop, if_neg hu]
      exact passAux_conserved l node

theorem growLoop_forall2 (fuel : Nat) (l : List (Finset Nat × Bool)) (node : Finset Nat) :
    List.Forall₂ (fun p q : Finset Nat × Bool =>
      p.1 = q.1 ∧ (p.2 = true → q.2 = true) ∧
        (q.2 = true → p.2 = true ∨ p.1 ⊆ (growLoop fuel l node).2))
      l (growLoop fuel l node).1 := by
  induction fuel generalizing l node with
  | zero =>
    exact List.forall₂_same.mpr (fun p _ => ⟨rfl, fun h => h, fun h => Or.inl h⟩)
  | succ fuel ih =>
    by_cases hu : (passAux l node).2.2 = true
    · rw [growLoop, if_pos hu]
      refine forall2_comp ?_ (passAux_forall2 l node) (ih (passAux l node).1 (passAux l node).2.1)
      intro a b c hab hbc
      refine ⟨hab.1.trans hbc.1, fun h => hbc.2.1 (hab.2.1 h), ?_⟩
      intro hc
      rcases hbc.2.2 hc with hb | hsub
      · rcases hab.2.2 hb with ha | hsub'
        · exact Or.inl ha
        · exact Or.inr (hsub'.trans (growLoop_node_mono _ _ _))
      · exact Or.inr (hab.1 ▸ hsub)
    · rw [growLoop, if_neg hu]
      exact passAux_forall2 l node

theorem growLoop_fix (fuel : Nat) (l : List (Finset Nat × Bool)) (node : Finset Nat)
    (hf : countUntaken l ≤ fuel) :
    Disjoint (growLoop fuel l node).2 (unionUntaken (growLoop fuel l node).1) := by
  induction fuel generalizing l node with
  | zero =>
    have h0 : countUntaken l = 0 := Nat.le_zero.mp hf
    have : ∀ p ∈ l, p.2 = true := by
      intro p hp
      have := List.countP_eq_zero.mp h0 p hp
      simpa using this
    show Disjoint node (unionUntaken l)
    rw [unionUntaken_eq_empty this]
    exact Finset.disjoint_empty_right node
  | succ fuel ih =>
    by_cases hu : (passAux l node).2.2 = true
    · rw [growLoop, if_pos hu]
      have hlt := passAux_count_lt l node hu
      exact ih _ _ (by omega)
    · rw [growLoop, if_neg hu]
      have hne := passAux_no_update l node (Bool.eq_false_iff.mpr (fun h => hu h))
      rw [hne.1, hne.2]
      exact passAux_fix l node (Bool.eq_false_iff.mpr (fun h => hu h))

theorem growLoop_length (fuel : Nat) (l : List (Finset Nat × Bool)) (node : Finset Nat) :
    (growLoop fuel l node).1.length = l.length :=
  (List.Forall₂.length_eq (growLoop_forall2 fuel l node)).symm

theorem unionFinsets_cons (s : Finset Nat) (t : List (Finset Nat)) :
    unionFinsets (s :: t) = s ∪ unionFinsets t := rfl

theorem unionUntaken_set (l : List (Finset Nat × Bool)) :
    ∀ (k : Nat) (p : Finset Nat × Bool), l[k]? = some p → p.2 = false →
      p.1 ∪ unionUntaken (l.set k (p.1, true)) = unionUntaken l := by
  induction l with
  | nil => intro k p hk; simp at hk
  | cons q qs ih =>
    intro k p hk hp2
    cases k with
    | zero =>
      rw [List.getElem?_cons_zero] at hk
      cases hk
      simp [List.set, unionUntaken, hp2]
    | succ k' =>
      rw [List.getElem?_cons_succ] at hk
      simp only [List.set, unionUntaken]
      rw [← ih k' p hk hp2]
      ext a
      simp only [Finset.mem_union]
      tauto

theorem gatherAux_disjoint_subset (fuel : Nat) :
    ∀ (l : List (Finset Nat × Bool)) (k : Nat),
      List.Pairwise Disjoint (gatherAux fuel l k) ∧
        ∀ g ∈ gatherAux fuel l k, g ⊆ unionUntaken l := by
  induction fuel with
  | zero =>
    intro l k
    exact ⟨List.Pairwise.nil, fun g hg => by cases hg⟩
  | succ fuel ih =>
    intro l k
    cases hk : l[k]? with
    | none => simp [gatherAux, List.get?_eq_getElem?, hk]
    | some p =>
      by_cases hp : p.2 = true
      · simpa [gatherAux, List.get?_eq_getElem?, hk, hp] using ih l (k + 1)
      · have hp2 : p.2 = false := Bool.eq_false_iff.mpr hp
        have hcount : countUntaken (l.set k (p.1, true)) ≤ l.length + 1 := by
          have h1 : countUntaken (l.set k (p.1, true)) ≤ (l.set k (p.1, true)).length :=
            List.countP_le_length _
          rw [List.length_set] at h1
          omega
        have hfix := growLoop_fix (l.length + 1) (l.set k (p.1, true)) p.1 hcount
        have hcons := growLoop_conserved (l.length + 1) (l.set k (p.1, true)) p.1
        have hUU := unionUntaken_set l k p hk hp2
        have hreq :
            (growLoop (l.length + 1) (l.set k (p.1, true)) p.1).2 ∪
              unionUntaken (growLoop (l.length + 1) (l.set k (p.1, true)) p.1).1 =
              unionUntaken l := by rw [hcons, hUU]
        rcases ih (growLoop (l.length + 1) (l.set k (p.1, true)) p.1).1 (k + 1) with
          ⟨ihpw, ihsub⟩
        simp only [gatherAux, List.get?_eq_getElem?, hk, hp2, if_false, Bool.false_eq_true]
        constructor
        · refine List.Pairwise.cons ?_ ihpw
          intro g hg
          exact Finset.disjoint_of_subset_right (ihsub g hg) hfix
        · intro g hg
          rcases List.mem_cons.mp hg with h1 | h2
          · subst h1
            rw [← hreq]
            exact Finset.subset_union_left
          · refine (ihsub g h2).trans ?_
            rw [← hreq]
            exact Finset.subset_union_right

theorem gatherAux_union (fuel : Nat) :
    ∀ (l : List (Finset Nat × Bool)) (k : Nat),
      (∀ j p, j < k → l[j]? = some p → p.2 = true) → l.length ≤ fuel + k →
      unionFinsets (gatherAux fuel l k) = unionUntaken l := by
  induction fuel with
  | zero =>
    intro l k hA hlen
    have hall : ∀ p ∈ l, p.2 = true := by
      intro p hp
      rcases List.mem_iff_getElem?.mp hp with ⟨j, hj⟩
      have hjlen : j < l.length := by
        by_contra hge
        rw [List.getElem?_eq_none_iff.mpr (le_of_not_lt hge)] at hj
        cases hj
      exact hA j p (by omega) hj
    rw [unionUntaken_eq_empty hall]
    rfl
  | succ fuel ih =>
    intro l k hA hlen
    cases hk : l[k]? with
    | none =>
      have hknone : l.length ≤ k := List.getElem?_eq_none_iff.mp hk
      have hall : ∀ p ∈ l, p.2 = true := by
        intro p hp
        rcases List.mem_iff_getElem?.mp hp with ⟨j, hj⟩
        have hjlen : j < l.length := by
          by_contra hge
          rw [List.getElem?_eq_none_iff.mpr (le_of_not_lt hge)] at hj
          cases hj
        exact hA j p (by omega) hj
      rw [unionUntaken_eq_empty hall]
      simp [gatherAux, List.get?_eq_getElem?, hk]
      rfl
    | some p =>
      have hklt : k < l.length := by
        by_contra hge
        rw [List.getElem?_eq_none_iff.mpr (le_of_not_lt hge)] at hk
        cases hk
      by_cases hp : p.2 = true
      · have hA' : ∀ j q, j < k + 1 → l[j]? = some q → q.2 = true := by
          intro j q hj hq
          by_cases hjk : j = k
          · subst hjk
            rw [hk] at hq
            cases hq
            exact hp
          · exact hA j q (by omega) hq
        have := ih l (k + 1) hA' (by omega)
        simpa [gatherAux, List.get?_eq_getElem?, hk, hp] using this
      · have hp2 : p.2 = false := Bool.eq_false_iff.mpr hp
        have hcons := growLoop_conserved (l.length + 1) (l.set k (p.1, true)) p.1
        have hUU := unionUntaken_set l k p hk hp2
        have hflen : (growLoop (l.length + 1) (l.set k (p.1, true)) p.1).1.length
            = l.length := by
          rw [growLoop_length, List.length_set]
        have hA' : ∀ j q, j < k + 1 →
            (growLoop (l.length + 1) (l.set k (p.1, true)) p.1).1[j]? = some q →
            q.2 = true := by
          intro j q hj hq
          rcases forall2_get? (growLoop_forall2 (l.length + 1) (l.set k (p.1, true)) p.1)
            hq with ⟨p', hp', hR⟩
          by_cases hjk : j = k
          · subst hjk
            rw [List.getElem?_set_eq_of_lt _ hklt] at hp'
            cases hp'
            exact hR.2.1 rfl
          · rw [List.getElem?_set_ne (fun h => hjk h.symm)] at hp'
            exact hR.2.1 (hA j p' (by omega) hp')
        have hrest := ih (growLoop (l.length + 1) (l.set k (p.1, true)) p.1).1 (k + 1)
          hA' (by omega)
        simp only [gatherAux, List.get?_eq_getElem?, hk, hp2, if_false, Bool.false_eq_true, unionFinsets_cons]
        rw [hrest, hcons, hUU]

theorem gatherAux_item (fuel : Nat) :
    ∀ (l : List (Finset Nat × Bool)) (k : Nat),
      (∀ j p, j < k → l[j]? = some p → p.2 = true) → l.length ≤ fuel + k →
      ∀ p ∈ l, p.2 = false → ∃ g ∈ gatherAux fuel l k, p.1 ⊆ g := by
  induction fuel with
  | zero =>
    intro l k hA hlen p hp hp2
    rcases List.mem_iff_getElem?.mp hp with ⟨j, hj⟩
    have hjlen : j < l.length := by
      by_contra hge
      rw [List.getElem?_eq_none_iff.mpr (le_of_not_lt hge)] at hj
      cases hj
    rw [hA j p (by omega) hj] at hp2
    cases hp2
  | succ fuel ih =>
    intro l k hA hlen p hp hp2
    cases hk : l[k]? with
    | none =>
      have hknone : l.length ≤ k := List.getElem?_eq_none_iff.mp hk
      rcases List.mem_iff_getElem?.mp hp with ⟨j, hj⟩
      have hjlen : j < l.length := by
        by_contra hge
        rw [List.getElem?_eq_none_iff.mpr (le_of_not_lt hge)] at hj
        cases hj
      rw [hA j p (by omega) hj] at hp2
      cases hp2
    | some q =>
      have hklt : k < l.length := by
        by_contra hge
        rw [List.getElem?_eq_none_iff.mpr (le_of_not_lt hge)] at hk
        cases hk
      by_cases hq : q.2 = true
      · have hA' : ∀ j q', j < k + 1 → l[j]? = some q' → q'.2 = true := by
          intro j q' hj hq'
          by_cases hjk : j = k
          · subst hjk
            rw [hk] at hq'
            cases hq'
            exact hq
          · exact hA j q' (by omega) hq'
        have := ih l (k + 1) hA' (by omega) p hp hp2
        simpa [gatherAux, List.get?_eq_getElem?, hk, hq] using this
      · have hq2 : q.2 = false := Bool.eq_false_iff.mpr hq
        have hflen : (growLoop (l.length + 1) (l.set k (q.1, true)) q.1).1.length
            = l.length := by
          rw [growLoop_length, List.length_set]
        have hA' : ∀ j q', j < k + 1 →
            (growLoop (l.length + 1) (l.set k (q.1, true)) q.1).1[j]? = some q' →
            q'.2 = true := by
          intro j q' hj hq'
          rcases forall2_get? (growLoop_forall2 (l.length + 1) (l.set k (q.1, true)) q.1)
            hq' with ⟨p', hp', hR⟩
          by_cases hjk : j = k
          · subst hjk
            rw [List.getElem?_set_eq_of_lt _ hklt] at hp'
            cases hp'
            exact hR.2.1 rfl
          · rw [List.getElem?_set_ne (fun h => hjk h.symm)] at hp'
            exact hR.2.1 (hA j p' (by omega) hp')
        simp only [gatherAux, List.get?_eq_getElem?, hk, hq2, if_false, Bool.false_eq_true]
        rcases List.mem_iff_getElem?.mp hp with ⟨j, hj⟩
        by_cases hjk : j = k
        · subst hjk
          rw [hk] at hj
          cases hj
          refine ⟨(growLoop (l.length + 1) (l.set j (p.1, true)) p.1).2,
            List.mem_cons_self _ _, ?_⟩
          exact growLoop_node_mono _ _ _
        · have hj1 : (l.set k (q.1, true))[j]? = some p := by
            rw [List.getElem?_set_ne (fun h => hjk h.symm)]
            exact hj
          have hp1 : p ∈ l.set k (q.1, true) := List.mem_iff_getElem?.mpr ⟨j, hj1⟩
          rcases forall2_mem_left
            (growLoop_forall2 (l.length + 1) (l.set k (q.1, true)) q.1) hp1 with
            ⟨q', hq', hR⟩
          rcases Bool.eq_false_or_eq_true q'.2 with hq'2 | hq'2
          · rcases hR.2.2 hq'2 with hptrue | hsub
            · rw [hptrue] at hp2; cases hp2
            · exact ⟨(growLoop (l.length + 1) (l.set k (q.1, true)) q.1).2,
                List.mem_cons_self _ _, hsub⟩
          · rcases ih (growLoop (l.length + 1) (l.set k (q.1, true)) q.1).1 (k + 1)
              hA' (by omega) q' hq' hq'2 with ⟨g, hg, hsub⟩
            exact ⟨g, List.mem_cons_of_mem _ hg, hR.1 ▸ hsub⟩

/-! ### The connected groups: partition facts -/

theorem connectedGroups_pairwise (items : List (Finset Nat)) :
    List.Pairwise Disjoint (connectedGroups items) :=
  (gatherAux_disjoint_subset (items.length + 1) (items.map (fun it => (it, false))) 0).1

theorem connectedGroups_item (items : List (Finset Nat)) {it : Finset Nat}
    (hit : it ∈ items) : ∃ g ∈ connectedGroups items, it ⊆ g := by
  have hmem : (it, false) ∈ items.map (fun x => (x, false)) :=
    List.mem_map_of_mem _ hit
  have := gatherAux_item (items.length + 1) (items.map (fun x => (x, false))) 0
    (fun j p hj _ => absurd hj (Nat.not_lt_zero j))
    (by rw [List.length_map]; omega) (it, false) hmem rfl
  exact this

theorem connectedGroups_eq_of_common (items : List (Finset Nat)) {g1 g2 : Finset Nat}
    {x : Nat} (h1 : g1 ∈ connectedGroups items) (h2 : g2 ∈ connectedGroups items)
    (hx1 : x ∈ g1) (hx2 : x ∈ g2) : g1 = g2 := by
  by_contra hne
  have hsym : Symmetric (Disjoint : Finset Nat → Finset Nat → Prop) :=
    fun _ _ h => h.symm
  have hd := List.Pairwise.forall hsym (connectedGroups_pairwise items) h1 h2 hne
  exact (Finset.disjoint_left.mp hd hx1) hx2

theorem subset_foldl_union (pairs : List (Nat × Nat)) :
    ∀ init : Finset Nat, init ⊆ pairs.foldl (fun s p => s ∪ {p.1, p.2}) init := by
  induction pairs with
  | nil => intro init; exact Finset.Subset.refl init
  | cons q qs ih =>
    intro init
    simp only [List.foldl_cons]
    exact Finset.subset_union_left.trans (ih (init ∪ {q.1, q.2}))

theorem mem_foldl_union (pairs : List (Nat × Nat)) {q : Nat × Nat} (hq : q ∈ pairs) :
    ∀ init : Finset Nat, ({q.1, q.2} : Finset Nat) ⊆
      pairs.foldl (fun s p => s ∪ {p.1, p.2}) init := by
  induction pairs with
  | nil => cases hq
  | cons r rs ih =>
    intro init
    simp only [List.foldl_cons]
    rcases List.mem_cons.mp hq with h1 | h2
    · subst h1
      exact Finset.subset_union_right.trans (subset_foldl_union rs _)
    · exact ih h2 _

theorem pair_subset_bucketFor {pairs : List (Nat × Nat)} {p : Nat × Nat}
    (hp : p ∈ pairs) : ({p.1, p.2} : Finset Nat) ⊆ bucketFor pairs p.1 := by
  have hp' : p ∈ pairs.filter (fun q => q.1 = p.1) :=
    List.mem_filter.mpr ⟨hp, by simp⟩
  exact mem_foldl_union _ hp' ∅

theorem bucketFor_mem_indexVertMap {pairs : List (Nat × Nat)} {p : Nat × Nat}
    (hp : p ∈ pairs) : bucketFor pairs p.1 ∈ indexVertMap pairs :=
  List.mem_map_of_mem _ (List.mem_dedup.mpr (List.mem_map_of_mem _ hp))

theorem edge_pair_in_group (m : Mesh) (E : Finset Nat) {e : Nat} (he : e ∈ E) :
    ∃ g ∈ connectedGroups (indexVertMap (edgePairs m E)),
      (m.edgeVerts e).1 ∈ g ∧ (m.edgeVerts e).2 ∈ g := by
  have hp : m.edgeVerts e ∈ edgePairs m E :=
    List.mem_map_of_mem _ (mem_finsetList.mpr he)
  rcases connectedGroups_item _ (bucketFor_mem_indexVertMap hp) with ⟨g, hg, hsub⟩
  have hpair := (pair_subset_bucketFor hp).trans hsub
  exact ⟨g, hg, hpair (Finset.mem_insert_self _ _),
    hpair (Finset.mem_insert.mpr (Or.inr (Finset.mem_singleton_self _)))⟩

/-! ### Extraction lemmas for the `Except`-plumbed operations -/

theorem convert_to_ok {m : Mesh} {c : Component} {tgt : Kind} {intl bord : Bool}
    {out : Component} (h : convert_to m c tgt intl bord = Except.ok out) :
    out = ⟨tgt, c.dag, convertElements m c.kind tgt c.indices intl bord⟩ ∧
      convertElements m c.kind tgt c.indices intl bord ≠ ∅ := by
  simp only [convert_to] at h
  by_cases he : convertElements m c.kind tgt c.indices intl bord = ∅
  · rw [if_pos he] at h
    cases h
  · rw [if_neg he] at h
    cases h
    exact ⟨rfl, he⟩

theorem to_edge_nonface_ok {m : Mesh} {c : Component} {intl bord bp : Bool}
    {out : Component} (hk : ¬ c.kind = Kind.Face)
    (h : to_edge m c intl bord bp = Except.ok out) :
    convert_to m c Kind.Edge intl bord = Except.ok out := by
  unfold to_edge at h
  cases hc : convert_to m c Kind.Edge intl bord with
  | error e => rw [hc] at h; cases h
  | ok conv =>
    simp only [hc] at h
    rw [if_neg (fun hand => hk hand.1)] at h
    cases h
    rfl

theorem to_edge_nokey_ok {m : Mesh} {c : Component} {intl bord : Bool}
    {out : Component} (h : to_edge m c intl bord false = Except.ok out) :
    convert_to m c Kind.Edge intl bord = Except.ok out := by
  unfold to_edge at h
  cases hc : convert_to m c Kind.Edge intl bord with
  | error e => rw [hc] at h; cases h
  | ok conv =>
    simp only [hc] at h
    rw [if_neg (fun hand => by cases hand.2)] at h
    cases h
    rfl

theorem canonicalEdgeComponent_ok {m : Mesh} {c : Component} {comp : Component}
    (h : canonicalEdgeComponent m c = Except.ok comp) :
    comp.dag = c.dag ∧ comp.indices = canonicalEdgeSet m c := by
  cases hkind : c.kind with
  | Edge =>
    rw [canonicalEdgeComponent, if_pos hkind] at h
    cases h
    rw [canonicalEdgeSet, if_pos hkind]
    exact ⟨rfl, rfl⟩
  | Vert =>
    have h1 : ¬ c.kind = Kind.Edge := by simp [hkind]
    rw [canonicalEdgeComponent, if_neg h1, if_pos (Or.inl hkind)] at h
    have h2 := to_edge_nonface_ok (by simp [hkind]) h
    rcases convert_to_ok h2 with ⟨hout, _⟩
    rw [hout]
    rw [canonicalEdgeSet, if_neg h1, if_pos (Or.inl hkind)]
    exact ⟨rfl, by simp [convertElements]⟩
  | Map =>
    have h1 : ¬ c.kind = Kind.Edge := by simp [hkind]
    rw [canonicalEdgeComponent, if_neg h1, if_pos (Or.inr hkind)] at h
    have h2 := to_edge_nonface_ok (by simp [hkind]) h
    rcases convert_to_ok h2 with ⟨hout, _⟩
    rw [hout]
    rw [canonicalEdgeSet, if_neg h1, if_pos (Or.inr hkind)]
    exact ⟨rfl, by simp [convertElements]⟩
  | Face =>
    have h1 : ¬ c.kind = Kind.Edge := by simp [hkind]
    have h2 : ¬ (c.kind = Kind.Vert ∨ c.kind = Kind.Map) := by simp [hkind]
    rw [canonicalEdgeComponent, if_neg h1, if_neg h2] at h
    have h3 := to_edge_nokey_ok h
    rcases convert_to_ok h3 with ⟨hout, _⟩
    rw [hout]
    rw [canonicalEdgeSet, if_neg h1, if_neg h2]
    exact ⟨rfl, by simp [convertElements]⟩

/-- The index set `get_return_list` produces for one vertex group: back to
the source kind, `internal=True` for Edge/Face sources. -/
def convertGroupSet (m : Mesh) (c : Component) (g : Finset Nat) : Finset Nat :=
  if c.kind = Kind.Edge ∨ c.kind = Kind.Face then convInternal m Kind.Vert c.kind g
  else convPlain m Kind.Vert c.kind g

theorem groupToComponent_ok {m : Mesh} {c : Component} {g : Finset Nat}
    {out : Component} (h : groupToComponent m c true g = Except.ok out) :
    out.dag = c.dag ∧ out.kind = c.kind ∧ out.indices = convertGroupSet m c g := by
  simp only [groupToComponent, if_pos] at h
  by_cases hef : c.kind = Kind.Edge ∨ c.kind = Kind.Face
  · rw [if_pos hef] at h
    rcases convert_to_ok h with ⟨hout, _⟩
    rw [hout]
    simp [convertGroupSet, hef, convertElements]
  · rw [if_neg hef] at h
    rcases convert_to_ok h with ⟨hout, _⟩
    rw [hout]
    simp [convertGroupSet, hef, convertElements]

theorem face_ring_in_group (m : Mesh) (hm : Mesh.WF m) (E : Finset Nat) {f : Nat}
    (hf : f < m.numPolygons) (hE : faceEdgeSet m f ⊆ E) :
    ∃ g ∈ connectedGroups (indexVertMap (edgePairs m E)), faceVertSet m f ⊆ g := by
  rcases hm f hf with ⟨hlen, hchain⟩
  rcases hchain 0 (by omega) with ⟨e0, he0F, hd0⟩
  have he0 : e0 ∈ E := hE (List.mem_toFinset.mpr he0F)
  rcases edge_pair_in_group m E he0 with ⟨g, hg, hg1, hg2⟩
  have hv01 : (m.faceVertList f).getD 0 0 ∈ g ∧ (m.faceVertList f).getD 1 0 ∈ g := by
    rcases hd0 with ⟨ha, hb⟩ | ⟨ha, hb⟩
    · exact ⟨ha ▸ hg1, hb ▸ hg2⟩
    · exact ⟨hb ▸ hg2, ha ▸ hg1⟩
  have hQ : ∀ i, i + 1 < (m.faceVertList f).length →
      (m.faceVertList f).getD i 0 ∈ g ∧ (m.faceVertList f).getD (i + 1) 0 ∈ g := by
    intro i
    induction i with
    | zero => intro _; exact hv01
    | succ i ihi =>
      intro hi1
      have hprev := ihi (by omega)
      rcases hchain (i + 1) hi1 with ⟨e', he'F, hd⟩
      have he' : e' ∈ E := hE (List.mem_toFinset.mpr he'F)
      rcases edge_pair_in_group m E he' with ⟨g', hg', hg'1, hg'2⟩
      have hv1 : (m.faceVertList f).getD (i + 1) 0 ∈ g' ∧
          (m.faceVertList f).getD (i + 2) 0 ∈ g' := by
        rcases hd with ⟨ha, hb⟩ | ⟨ha, hb⟩
        · exact ⟨ha ▸ hg'1, hb ▸ hg'2⟩
        · exact ⟨hb ▸ hg'2, ha ▸ hg'1⟩
      have heq : g = g' := connectedGroups_eq_of_common _ hg hg' hprev.2 hv1.1
      exact ⟨hprev.2, heq ▸ hv1.2⟩
  refine ⟨g, hg, ?_⟩
  intro v hv
  rcases List.mem_iff_getElem.mp (List.mem_toFinset.mp hv) with ⟨j, hjlen, hget⟩
  have hgetD : (m.faceVertList f).getD j 0 = v := by
    rw [List.getD_eq_getElem _ _ hjlen, hget]
  by_cases hj1 : j + 1 < (m.faceVertList f).length
  · exact hgetD ▸ (hQ j hj1).1
  · have hj0 : 1 ≤ j := by omega
    have hstep : j - 1 + 1 = j := by omega
    have := (hQ (j - 1) (by omega)).2
    rw [hstep] at this
    exact hgetD ▸ this

theorem convertGroupSet_disjoint (m : Mesh) (hm : Mesh.WF m) (c : Component)
    {g1 g2 : Finset Nat} (hd : Disjoint g1 g2) :
    Disjoint (convertGroupSet m c g1) (convertGroupSet m c g2) := by
  rw [Finset.disjoint_left]
  intro a ha1 ha2
  cases hkind : c.kind with
  | Vert =>
    simp only [convertGroupSet, hkind] at ha1 ha2
    exact (Finset.disjoint_left.mp hd ha1) ha2
  | Edge =>
    simp only [convertGroupSet, hkind, if_pos (Or.inl rfl)] at ha1 ha2
    rcases Finset.mem_filter.mp ha1 with ⟨_, h11, _⟩
    rcases Finset.mem_filter.mp ha2 with ⟨_, h21, _⟩
    exact (Finset.disjoint_left.mp hd h11) h21
  | Face =>
    simp only [convertGroupSet, hkind, if_pos (Or.inr rfl)] at ha1 ha2
    rcases Finset.mem_filter.mp ha1 with ⟨har, h1s⟩
    rcases Finset.mem_filter.mp ha2 with ⟨_, h2s⟩
    have haP : a < m.numPolygons := Finset.mem_range.mp har
    have hlen := (hm a haP).1
    have hne : m.faceVertList a ≠ [] := by
      intro hnil
      rw [hnil] at hlen
      simp at hlen
    rcases List.exists_mem_of_ne_nil _ hne with ⟨v, hv⟩
    have hvF : v ∈ faceVertSet m a := List.mem_toFinset.mpr hv
    exact (Finset.disjoint_left.mp hd (h1s hvF)) (h2s hvF)
  | Map =>
    simp only [convertGroupSet, hkind] at ha1 ha2
    rcases Finset.mem_filter.mp ha1 with ⟨_, h11⟩
    rcases Finset.mem_filter.mp ha2 with ⟨_, h21⟩
    exact (Finset.disjoint_left.mp hd h11) h21

/-- C1: for any component, the connect-grouping's output, compared with the
convert-to-Edge-then-back image: the image is contained in the union of the
groups (the claim's equality fails, see the counterexample), and no two
groups share an index. -/
theorem connected_groups_contain_image_and_are_disjoint
    (m : Mesh) (c : Component) (gs : List Component)
    (hm : Mesh.WF m)
    (hEdge : c.kind = Kind.Edge → c.indices ⊆ Finset.range m.numEdges)
    (h : get_connected_components m c true = Except.ok gs) :
    convertBackFromEdge m c (canonicalEdgeSet m c) ⊆ unionIndices gs ∧
      List.Pairwise (fun a b => Disjoint a.indices b.indices) gs := by
  cases hce : canonicalEdgeComponent m c with
  | error e =>
    simp only [get_connected_components, hce] at h
    cases h
  | ok comp =>
    simp only [get_connected_components, hce] at h
    rcases canonicalEdgeComponent_ok hce with ⟨hdag, hind⟩
    rw [hind] at h
    have hf3 : List.Forall₂
        (fun g out => out.dag = c.dag ∧ out.kind = c.kind ∧
          out.indices = convertGroupSet m c g)
        (connectedGroups (indexVertMap (edgePairs m (canonicalEdgeSet m c)))) gs :=
      (mapExcept_ok_forall2 h).imp (fun a b hab => groupToComponent_ok hab)
    set E := canonicalEdgeSet m c with hEdef
    constructor
    · intro x hx
      have key : ∃ g ∈ connectedGroups (indexVertMap (edgePairs m E)),
          x ∈ convertGroupSet m c g := by
        cases hkind : c.kind with
        | Vert =>
          rw [convertBackFromEdge, if_neg (by simp [hkind]), hkind] at hx
          simp only [convPlain, endpointSet] at hx
          rcases Finset.mem_biUnion.mp hx with ⟨e, heE, hxe⟩
          rcases edge_pair_in_group m E heE with ⟨g, hg, h1, h2⟩
          refine ⟨g, hg, ?_⟩
          rw [convertGroupSet, if_neg (by simp [hkind]), hkind]
          simp only [convPlain]
          rcases Finset.mem_insert.mp hxe with hx1 | hx2
          · exact hx1 ▸ h1
          · exact (Finset.mem_singleton.mp hx2) ▸ h2
        | Edge =>
          rw [convertBackFromEdge, if_pos (Or.inl hkind), hkind] at hx
          have hconv : convInternal m Kind.Edge Kind.Edge E = E := rfl
          rw [hconv] at hx
          have hEc : E = c.indices := by
            rw [hEdef, canonicalEdgeSet, if_pos hkind]
          have hxlt : x ∈ Finset.range m.numEdges := (hEdge hkind) (hEc ▸ hx)
          rcases edge_pair_in_group m E hx with ⟨g, hg, h1, h2⟩
          refine ⟨g, hg, ?_⟩
          rw [convertGroupSet, if_pos (Or.inl hkind), hkind]
          simp only [convInternal]
          exact Finset.mem_filter.mpr ⟨hxlt, h1, h2⟩
        | Face =>
          rw [convertBackFromEdge, if_pos (Or.inr hkind), hkind] at hx
          simp only [convInternal] at hx
          rcases Finset.mem_filter.mp hx with ⟨hrange, hsub⟩
          rcases face_ring_in_group m hm E (Finset.mem_range.mp hrange) hsub with
            ⟨g, hg, hvs⟩
          refine ⟨g, hg, ?_⟩
          rw [convertGroupSet, if_pos (Or.inr hkind), hkind]
          simp only [convInternal]
          exact Finset.mem_filter.mpr ⟨hrange, hvs⟩
        | Map =>
          rw [convertBackFromEdge, if_neg (by simp [hkind]), hkind] at hx
          simp only [convPlain, uvsOfVerts] at hx
          rcases Finset.mem_filter.mp hx with ⟨hrange, howner⟩
          simp only [endpointSet] at howner
          rcases Finset.mem_biUnion.mp howner with ⟨e, heE, hmem⟩
          rcases edge_pair_in_group m E heE with ⟨g, hg, h1, h2⟩
          refine ⟨g, hg, ?_⟩
          rw [convertGroupSet, if_neg (by simp [hkind]), hkind]
          simp only [convPlain, uvsOfVerts]
          refine Finset.mem_filter.mpr ⟨hrange, ?_⟩
          rcases Finset.mem_insert.mp hmem with hx1 | hx2
          · exact hx1 ▸ h1
          · exact (Finset.mem_singleton.mp hx2) ▸ h2
      rcases key with ⟨g, hg, hxg⟩
      rcases forall2_mem_left hf3 hg with ⟨out, hout, hrel⟩
      exact mem_unionIndices.mpr ⟨out, hout, by rw [hrel.2.2]; exact hxg⟩
    · refine pairwise_of_forall2 ?_ hf3 (connectedGroups_pairwise _)
      intro a a' b b' hab ha'b' hd
      rw [hab.2.2, ha'b'.2.2]
      exact convertGroupSet_disjoint m hm c hd

/-! ### Mesh-shell dfs lemmas -/

theorem finsetList_length (S : Finset Nat) : (finsetList S).length = S.card := by
  calc (finsetList S).length
      = Multiset.card (finsetList S : Multiset Nat) := (Multiset.coe_card _).symm
    _ = Multiset.card S.val := by rw [finsetList_coe]
    _ = S.card := rfl

theorem floodIter_subset_self (m : Mesh) :
    ∀ (n : Nat) (S : Finset Nat), S ⊆ floodIter m n S := by
  intro n
  induction n with
  | zero => intro S; exact Finset.Subset.refl S
  | succ n ih =>
    intro S
    refine Finset.Subset.trans ?_ (ih (floodStep m S))
    exact Finset.subset_union_left

theorem mem_polySelectETS_self (m : Mesh) (f : Nat) : f ∈ polySelectETS m f :=
  floodIter_subset_self m m.numPolygons {f} (Finset.mem_singleton_self f)

theorem dfsLoop_from (m : Mesh) (F : Finset Nat) :
    ∀ (fuel : Nat) (stack : List Nat) (seen : Finset Nat),
      (∀ x ∈ stack, x ∈ F) →
      ∀ s ∈ dfsLoop m F fuel stack seen, ∃ f ∈ F, s = polySelectETS m f := by
  intro fuel
  induction fuel with
  | zero => intro stack seen _ s hs; cases hs
  | succ fuel ih =>
    intro stack seen hstk s hs
    cases stack with
    | nil => cases hs
    | cons x rest =>
      by_cases hx : x ∈ seen
      · rw [dfsLoop, if_pos hx] at hs
        exact ih rest seen (fun y hy => hstk y (List.mem_cons_of_mem _ hy)) s hs
      · rw [dfsLoop, if_neg hx] at hs
        rcases List.mem_cons.mp hs with h1 | h2
        · exact ⟨x, hstk x (List.mem_cons_self _ _), h1⟩
        · refine ih _ _ ?_ s h2
          intro y hy
          rcases List.mem_append.mp hy with hy1 | hy2
          · have := mem_finsetList.mp (List.mem_reverse.mp hy1)
            exact (Finset.mem_sdiff.mp this).1
          · exact hstk y (List.mem_cons_of_mem _ hy2)

theorem dfsLoop_cover (m : Mesh) (F : Finset Nat) :
    ∀ (fuel : Nat) (stack : List Nat) (seen : Finset Nat),
      (∀ x ∈ stack, x ∈ F) → (F \ seen ⊆ stack.toFinset) →
      ((F \ seen).card * (F.card + 1) + stack.length + 1 ≤ fuel) →
      F ⊆ seen ∪ unionFinsets (dfsLoop m F fuel stack seen) := by
  intro fuel
  induction fuel with
  | zero =>
    intro stack seen _ _ hb
    exact absurd hb (by omega)
  | succ fuel ih =>
    intro stack seen hstk hsub hb
    cases stack with
    | nil =>
      intro y hy
      rw [Finset.mem_union]
      left
      by_contra hns
      have hmem : y ∈ F \ seen := Finset.mem_sdiff.mpr ⟨hy, hns⟩
      have := hsub hmem
      simp at this
    | cons x rest =>
      by_cases hx : x ∈ seen
      · rw [dfsLoop, if_pos hx]
        refine ih rest seen (fun y hy => hstk y (List.mem_cons_of_mem _ hy)) ?_ ?_
        · intro y hy
          have hy2 := List.mem_toFinset.mp (hsub hy)
          rcases List.mem_cons.mp hy2 with h1 | h2
          · have hyseen : y ∈ seen := by rw [h1]; exact hx
            exact absurd hyseen (Finset.mem_sdiff.mp hy).2
          · exact List.mem_toFinset.mpr h2
        · simp only [List.length_cons] at hb
          omega
      · rw [dfsLoop, if_neg hx]
        have hxF : x ∈ F := hstk x (List.mem_cons_self _ _)
        have hxshell : x ∈ polySelectETS m x := mem_polySelectETS_self m x
        have hstk' : ∀ y ∈ (finsetList (F \ (seen ∪ polySelectETS m x))).reverse ++ rest,
            y ∈ F := by
          intro y hy
          rcases List.mem_append.mp hy with hy1 | hy2
          · exact (Finset.mem_sdiff.mp (mem_finsetList.mp (List.mem_reverse.mp hy1))).1
          · exact hstk y (List.mem_cons_of_mem _ hy2)
        have hsub' : F \ (seen ∪ polySelectETS m x) ⊆
            ((finsetList (F \ (seen ∪ polySelectETS m x))).reverse ++ rest).toFinset := by
          intro y hy
          rw [List.toFinset_append, List.toFinset_reverse, finsetList_toFinset]
          exact Finset.mem_union_left _ hy
        have hcard : (F \ (seen ∪ polySelectETS m x)).card < (F \ seen).card := by
          apply Finset.card_lt_card
          constructor
          · exact Finset.sdiff_subset_sdiff (Finset.Subset.refl F) Finset.subset_union_left
          · intro hcontra
            have hxmem : x ∈ F \ seen := Finset.mem_sdiff.mpr ⟨hxF, hx⟩
            have := hcontra hxmem
            rcases Finset.mem_sdiff.mp this with ⟨_, hnot⟩
            exact hnot (Finset.mem_union_right _ hxshell)
        have hlen' : ((finsetList (F \ (seen ∪ polySelectETS m x))).reverse ++ rest).length
            ≤ F.card + rest.length := by
          rw [List.length_append, List.length_reverse, finsetList_length]
          have h1 : (F \ (seen ∪ polySelectETS m x)).card ≤ F.card :=
            Finset.card_le_card (Finset.sdiff_subset)
          omega
        have hK1 : 1 ≤ (F \ seen).card := by
          have : x ∈ F \ seen := Finset.mem_sdiff.mpr ⟨hxF, hx⟩
          have := Finset.card_pos.mpr ⟨x, this⟩
          omega
        have hmul : (F \ (seen ∪ polySelectETS m x)).card * (F.card + 1) ≤
            ((F \ seen).card - 1) * (F.card + 1) :=
          Nat.mul_le_mul_right _ (by omega)
        have hsplit : (F \ seen).card * (F.card + 1) =
            ((F \ seen).card - 1) * (F.card + 1) + (F.card + 1) := by
          have hKeq : (F \ seen).card = ((F \ seen).card - 1) + 1 := by omega
          calc (F \ seen).card * (F.card + 1)
              = (((F \ seen).card - 1) + 1) * (F.card + 1) := by rw [← hKeq]
            _ = ((F \ seen).card - 1) * (F.card + 1) + (F.card + 1) := by ring
        have hfuel' : (F \ (seen ∪ polySelectETS m x)).card * (F.card + 1) +
            ((finsetList (F \ (seen ∪ polySelectETS m x))).reverse ++ rest).length + 1
            ≤ fuel := by
          simp only [List.length_cons] at hb
          omega
        have hrec := ih _ _ hstk' hsub' hfuel'
        intro y hy
        have hy2 := hrec hy
        rw [unionFinsets_cons]
        rw [Finset.mem_union] at hy2 ⊢
        rcases hy2 with hy3 | hy4
        · rcases Finset.mem_union.mp hy3 with hy5 | hy6
          · exact Or.inl hy5
          · exact Or.inr (Finset.mem_union_left _ hy6)
        · exact Or.inr (Finset.mem_union_right _ hy4)

theorem mesh_shells_faces_cover (m : Mesh) (F : Finset Nat) :
    F ⊆ unionFinsets (mesh_shells_faces m F) := by
  cases hl : finsetList F with
  | nil =>
    intro y hy
    rw [finsetList_eq_nil.mp hl] at hy
    exact absurd hy (Finset.not_mem_empty y)
  | cons start rest =>
    have hstart : start ∈ F := mem_finsetList.mp (hl ▸ List.mem_cons_self _ _)
    rw [mesh_shells_faces, hl]
    show F ⊆ unionFinsets (dfsLoop m F (Nat.succ (F.card * (F.card + 1) + 1)) [start] ∅)
    rw [dfsLoop, if_neg (Finset.not_mem_empty start)]
    have hstk' : ∀ y ∈ (finsetList (F \ (∅ ∪ polySelectETS m start))).reverse ++
        ([] : List Nat), y ∈ F := by
      intro y hy
      rcases List.mem_append.mp hy with hy1 | hy2
      · exact (Finset.mem_sdiff.mp (mem_finsetList.mp (List.mem_reverse.mp hy1))).1
      · cases hy2
    have hsub' : F \ (∅ ∪ polySelectETS m start) ⊆
        ((finsetList (F \ (∅ ∪ polySelectETS m start))).reverse ++
          ([] : List Nat)).toFinset := by
      intro y hy
      rw [List.toFinset_append, List.toFinset_reverse, finsetList_toFinset]
      exact Finset.mem_union_left _ hy
    have hstartshell : start ∈ ∅ ∪ polySelectETS m start :=
      Finset.mem_union_right _ (mem_polySelectETS_self m start)
    have hK1 : 1 ≤ F.card := by
      have := Finset.card_pos.mpr ⟨start, hstart⟩
      omega
    have hKle : (F \ (∅ ∪ polySelectETS m start)).card ≤ F.card - 1 := by
      have hss : F \ (∅ ∪ polySelectETS m start) ⊂ F := by
        constructor
        · exact Finset.sdiff_subset
        · intro hcontra
          have := hcontra hstart
          exact (Finset.mem_sdiff.mp this).2 hstartshell
      have := Finset.card_lt_card hss
      omega
    have hfuel' : (F \ (∅ ∪ polySelectETS m start)).card * (F.card + 1) +
        ((finsetList (F \ (∅ ∪ polySelectETS m start))).reverse ++
          ([] : List Nat)).length + 1 ≤ F.card * (F.card + 1) + 1 := by
      rw [List.length_append, List.length_reverse, finsetList_length]
      simp only [List.length_nil]
      have hmul : (F \ (∅ ∪ polySelectETS m start)).card * (F.card + 1) ≤
          (F.card - 1) * (F.card + 1) := Nat.mul_le_mul_right _ hKle
      have hsplit : F.card * (F.card + 1) =
          (F.card - 1) * (F.card + 1) + (F.card + 1) := by
        have hKeq : F.card = (F.card - 1) + 1 := by omega
        calc F.card * (F.card + 1) = ((F.card - 1) + 1) * (F.card + 1) := by rw [← hKeq]
          _ = (F.card - 1) * (F.card + 1) + (F.card + 1) := by ring
      omega
    have hrec := dfsLoop_cover m F (F.card * (F.card + 1) + 1) _ _ hstk' hsub' hfuel'
    intro y hy
    have hy2 := hrec hy
    rw [unionFinsets_cons]
    rw [Finset.mem_union] at hy2 ⊢
    rcases hy2 with hy3 | hy4
    · rcases Finset.mem_union.mp hy3 with hy5 | hy6
      · exact absurd hy5 (Finset.not_mem_empty y)
      · exact Or.inl hy6
    · exact Or.inr hy4

theorem mesh_shells_faces_from (m : Mesh) (F : Finset Nat) :
    ∀ s ∈ mesh_shells_faces m F, ∃ f ∈ F, s = polySelectETS m f := by
  cases hl : finsetList F with
  | nil => rw [mesh_shells_faces, hl]; intro s hs; cases hs
  | cons start rest =>
    have hstart : start ∈ F := mem_finsetList.mp (hl ▸ List.mem_cons_self _ _)
    rw [mesh_shells_faces, hl]
    refine dfsLoop_from m F _ _ _ ?_
    intro x hx
    rcases List.mem_cons.mp hx with h1 | h2
    · exact h1 ▸ hstart
    · cases h2

/-- C2: each shell `mesh_shells` discovers is the whole-mesh shell of some
face of the component's Face-converted set (so it may leave that set — see
the counterexample), their union covers the face set, and the output is
those shells in discovery order, converted back to the source kind when it
is not Face. -/
theorem mesh_shells_whole_mesh_cover (m : Mesh) (c : Component)
    (shells : List Component) (h : mesh_shells m c = Except.ok shells) :
    convPlain m c.kind Kind.Face c.indices ⊆
        unionFinsets (mesh_shells_faces m (convPlain m c.kind Kind.Face c.indices)) ∧
      (∀ s ∈ mesh_shells_faces m (convPlain m c.kind Kind.Face c.indices),
        ∃ f ∈ convPlain m c.kind Kind.Face c.indices, s = polySelectETS m f) ∧
      List.Forall₂ (fun s comp => comp.kind = c.kind ∧ comp.dag = c.dag ∧
          comp.indices =
            (if c.kind = Kind.Face then s else convPlain m Kind.Face c.kind s))
        (mesh_shells_faces m (convPlain m c.kind Kind.Face c.indices)) shells := by
  refine ⟨mesh_shells_faces_cover m _, mesh_shells_faces_from m _, ?_⟩
  simp only [mesh_shells] at h
  cases hcv : convert_to m c Kind.Face false false with
  | error e => rw [hcv] at h; cases h
  | ok faces =>
    simp only [hcv] at h
    rcases convert_to_ok hcv with ⟨hfaces, _⟩
    have hidx : faces.indices = convPlain m c.kind Kind.Face c.indices := by
      rw [hfaces]
      simp [convertElements]
    rw [hidx] at h
    refine (mapExcept_ok_forall2 h).imp ?_
    intro s comp hsc
    by_cases hkind : c.kind = Kind.Face
    · rw [if_pos hkind] at hsc
      cases hsc
      exact ⟨hkind.symm, rfl, by rw [if_pos hkind]⟩
    · rw [if_neg hkind] at hsc
      rcases convert_to_ok hsc with ⟨hout, _⟩
      rw [hout]
      exact ⟨rfl, rfl, by rw [if_neg hkind]; simp [convertElements]⟩

/-! ### Border recovery (to_edge with the border key) -/

theorem collectBorderEdges_mem {m : Mesh} {dag : Nat} :
    ∀ {fs : List Nat} {B : Finset Nat}, collectBorderEdges m dag fs = Except.ok B →
      ∀ f ∈ fs, is_border_face m f = true →
        ∀ e ∈ faceEdgeSet m f, is_border_edge m e = true → e ∈ B := by
  intro fs
  induction fs with
  | nil => intro B _ f hf; cases hf
  | cons g gs ih =>
    intro B h f hf hbf e he hbe
    simp only [collectBorderEdges] at h
    by_cases hg : is_border_face m g = true
    · rw [if_pos hg] at h
      cases hcv : convert_to m ⟨Kind.Face, dag, {g}⟩ Kind.Edge false false with
      | error er => rw [hcv] at h; cases h
      | ok nEdge =>
        simp only [hcv] at h
        cases hrest : collectBorderEdges m dag gs with
        | error er => rw [hrest] at h; cases h
        | ok rest =>
          simp only [hrest] at h
          cases h
          rcases List.mem_cons.mp hf with h1 | h2
          · rcases convert_to_ok hcv with ⟨hout, _⟩
            have hn : nEdge.indices = faceEdgeSet m f := by
              rw [hout, h1]
              simp [convertElements, convPlain, Finset.singleton_biUnion]
            apply Finset.mem_union_left
            exact Finset.mem_filter.mpr ⟨hn ▸ he, hbe⟩
          · exact Finset.mem_union_right _ (ih hrest f h2 hbf e he hbe)
    · rw [if_neg hg] at h
      rcases List.mem_cons.mp hf with h1 | h2
      · rw [← h1] at hg
        exact absurd hbf hg
      · exact ih h f h2 hbf e he hbe

/-- C4: converting a Face component to Edge kind with the `border` keyword
present additionally returns, for every face of the component lying on the
mesh boundary, every mesh-boundary edge of that face (the manual recovery
loop of `to_edge`). -/
theorem to_edge_border_recovers_boundary_edges
    (m : Mesh) (c : Component) (internal border : Bool) (out : Component)
    (hkind : c.kind = Kind.Face)
    (h : to_edge m c internal border true = Except.ok out) :
    ∀ f ∈ c.indices, m.onBoundaryFaceB f = true →
      ∀ e ∈ faceEdgeSet m f, m.onBoundaryEdgeB e = true → e ∈ out.indices := by
  simp only [to_edge] at h
  cases hcv : convert_to m c Kind.Edge internal border with
  | error e' => rw [hcv] at h; cases h
  | ok conv =>
    simp only [hcv] at h
    rw [if_pos ⟨hkind, trivial⟩] at h
    cases hbe : collectBorderEdges m c.dag (finsetList c.indices) with
    | error e' => rw [hbe] at h; cases h
    | ok B =>
      simp only [hbe] at h
      cases h
      intro f hf hbf e he hbee
      apply Finset.mem_union_right
      exact collectBorderEdges_mem hbe f (mem_finsetList.mpr hf) hbf e he hbee

/-- C5: for an incomplete UV component, `map_shells` wants exactly the shell
ids its own indices carry, and each entry collects every UV index of the
whole mesh carrying that id — touching one point of a shell selects the
entire shell. -/
theorem map_shells_touched_ids_whole_shell
    (m : Mesh) (c : Component) (hkind : c.kind = Kind.Map)
    (hincomplete : is_complete m c = false) :
    map_shells_wanted m c = c.indices.image m.uvShellIds ∧
      (∀ sid ∈ map_shells_wanted m c, ∀ u, u < m.numUVs →
        (u ∈ (map_shells_entry m c sid).indices ↔ m.uvShellIds u = sid)) ∧
      (∀ i ∈ c.indices, i < m.numUVs →
        i ∈ (map_shells_entry m c (m.uvShellIds i)).indices) := by
  refine ⟨?_, ?_, ?_⟩
  · rw [map_shells_wanted, if_neg (by rw [hincomplete]; exact Bool.false_ne_true)]
  · intro sid _ u hu
    simp only [map_shells_entry, Finset.mem_filter, Finset.mem_range]
    exact ⟨fun hx => hx.2, fun hx => ⟨hu, hx⟩⟩
  · intro i _ hi
    simp only [map_shells_entry, Finset.mem_filter, Finset.mem_range]
    exact ⟨hi, trivial⟩

/-- C6: toggle is symmetric difference, hence toggling twice against the
same same-mesh component — or twice against the complete set when `other`
is omitted — restores the original index set. -/
theorem toggle_involution (m : Mesh) (c o : Component)
    (hdag : o.dag = c.dag) (hkind : o.kind = c.kind) :
    ((toggle m c (some o)).bind (fun c1 => toggle m c1 (some o))) = some c ∧
      ((toggle m c none).bind (fun c1 => toggle m c1 none)) = some c := by
  rcases c with ⟨ck, cd, ci⟩
  constructor
  · simp only [toggle, Option.bind, if_pos hdag.symm]
    rw [symmDiff_symmDiff_cancel_right]
  · simp only [toggle, Option.bind, get_complete]
    rw [symmDiff_symmDiff_cancel_right]

/-- C7 (amended): for a Vertex- or UV-kind component, `is_border i` (when it
does not raise) is true iff some edge of the *plain* (not internal)
single-element conversion to Edge kind is a mesh-boundary edge. -/
theorem is_border_vert_plain_characterisation
    (m : Mesh) (c : Component) (i : Nat) (b : Bool)
    (hkind : c.kind = Kind.Vert ∨ c.kind = Kind.Map)
    (h : is_border m c i = Except.ok b) :
    (b = true ↔ ∃ e ∈ convPlain m c.kind Kind.Edge {i}, m.onBoundaryEdgeB e = true) := by
  rcases hkind with hk | hk
  · simp only [is_border, hk] at h
    cases hte : to_edge m ⟨Kind.Vert, c.dag, {i}⟩ false false false with
    | error er => rw [hte] at h; cases h
    | ok edge =>
      simp only [hte] at h
      cases h
      rcases convert_to_ok (to_edge_nokey_ok hte) with ⟨hout, _⟩
      rw [hk, List.any_eq_true]
      constructor
      · rintro ⟨e, hel, hb⟩
        refine ⟨e, ?_, hb⟩
        have := mem_finsetList.mp hel
        rw [hout] at this
        simpa [convertElements] using this
      · rintro ⟨e, hel, hb⟩
        refine ⟨e, ?_, hb⟩
        rw [mem_finsetList, hout]
        simpa [convertElements] using hel
  · simp only [is_border, hk] at h
    cases hte : to_edge m ⟨Kind.Map, c.dag, {i}⟩ false false false with
    | error er => rw [hte] at h; cases h
    | ok edge =>
      simp only [hte] at h
      cases h
      rcases convert_to_ok (to_edge_nokey_ok hte) with ⟨hout, _⟩
      rw [hk, List.any_eq_true]
      constructor
      · rintro ⟨e, hel, hb⟩
        refine ⟨e, ?_, hb⟩
        have := mem_finsetList.mp hel
        rw [hout] at this
        simpa [convertElements] using this
      · rintro ⟨e, hel, hb⟩
        refine ⟨e, ?_, hb⟩
        rw [mem_finsetList, hout]
        simpa [convertElements] using hel

/-- C8 (amended): toggling against a component bound to a different dagpath
is non-fatal in the sense that it logs a warning and returns the value of
`logger.warn(...)`, which is `None` — not a Component; the receiver is not
mutated. -/
theorem toggle_mixed_mesh_returns_none (m : Mesh) (c o : Component)
    (hdag : ¬ c.dag = o.dag) : toggle m c (some o) = none := by
  simp only [toggle, if_neg hdag]

/-- C9 (amended): `from_ls` with an ordered-selection keyword raises
`OrderedSelectionsNotSet` when the track-selection-order capability is off;
when it is on, merging defaults to disabled — but an explicit `merge`
keyword still overrides that default. -/
theorem from_ls_ordered_selection_behaviour (trackOrder : Bool) (kw : LsKw)
    (hneed : need_ordered_selection_set kw = true) :
    (trackOrder = false →
        from_ls trackOrder kw = Except.error LsError.orderedSelectionsNotSet) ∧
      (trackOrder = true → kw.merge = none → from_ls trackOrder kw = Except.ok false) := by
  constructor
  · intro ht
    simp [from_ls, hneed, ht]
  · intro ht hm
    simp [from_ls, hneed, ht, hm]

/-- C10: `__len__` never raises — it returns the element count, catching
the provider's RuntimeError into 0 for a null backing object — and
`__nonzero__` is false exactly when the object is null or the length is 0. -/
theorem componentLen_total_and_nonzero :
    componentLen MObjState.null = 0 ∧
      (∀ es : List Nat, componentLen (MObjState.valid es) = es.length) ∧
      (∀ s : MObjState, componentNonzero s = false ↔
        (s = MObjState.null ∨ componentLen s = 0)) := by
  refine ⟨rfl, fun es => rfl, ?_⟩
  intro s
  cases s with
  | null => simp [componentNonzero]
  | valid es => simp [componentNonzero, componentLen, elementCount]

/-! ### Concrete instances for counterexamples and witnesses -/

/-- A triangle wire: three vertices, three edges forming a cycle, no faces. -/
def c1Mesh : Mesh where
  numVertices := 3
  numEdges := 3
  numPolygons := 0
  numUVs := 0
  edgeVerts := fun e => if e = 0 then (0, 1) else if e = 1 then (1, 2) else (2, 0)
  faceVertList := fun _ => []
  faceEdgeList := fun _ => []
  uvOwner := fun _ => 0
  onBoundaryFaceB := fun _ => false
  onBoundaryEdgeB := fun _ => false
  faceAdj := fun _ => ∅
  uvShellIds := fun _ => 0
  uvShellCount := 0
  borderConvert := fun _ _ _ => ∅

/-- Two edges of the triangle, sharing vertex 1. -/
def c1Comp : Component := ⟨Kind.Edge, 0, {0, 1}⟩

/-- C1 counterexample: for the edge component {0,1} of the triangle, the
single connected group is the internally converted vertex set {0,1,2},
which contains edge 2 — so the union of the groups is a strict superset of
the convert-to-Edge-then-back image {0,1}, not equal to it. -/
theorem connected_groups_not_partition_counterexample :
    get_connected_components c1Mesh c1Comp true =
        Except.ok [⟨Kind.Edge, 0, ({0, 1, 2} : Finset Nat)⟩] ∧
      ¬ unionIndices [(⟨Kind.Edge, 0, ({0, 1, 2} : Finset Nat)⟩ : Component)] =
        convertBackFromEdge c1Mesh c1Comp (canonicalEdgeSet c1Mesh c1Comp) := by
  decide

/-- C1 witness: the amended theorem instantiated on the triangle. -/
theorem connected_groups_contain_image_witness :
    Mesh.WF c1Mesh ∧
      (c1Comp.kind = Kind.Edge → c1Comp.indices ⊆ Finset.range c1Mesh.numEdges) ∧
      get_connected_components c1Mesh c1Comp true =
        Except.ok [⟨Kind.Edge, 0, ({0, 1, 2} : Finset Nat)⟩] ∧
      (convertBackFromEdge c1Mesh c1Comp (canonicalEdgeSet c1Mesh c1Comp) ⊆
          unionIndices [(⟨Kind.Edge, 0, ({0, 1, 2} : Finset Nat)⟩ : Component)] ∧
        List.Pairwise (fun a b => Disjoint a.indices b.indices)
          [(⟨Kind.Edge, 0, ({0, 1, 2} : Finset Nat)⟩ : Component)]) := by
  have hwf : Mesh.WF c1Mesh := by
    intro f hf
    have h0 : c1Mesh.numPolygons = 0 := rfl
    rw [h0] at hf
    omega
  refine ⟨hwf, by decide, by decide, ?_⟩
  exact connected_groups_contain_image_and_are_disjoint c1Mesh c1Comp
    [⟨Kind.Edge, 0, ({0, 1, 2} : Finset Nat)⟩] hwf (by decide) (by decide)

/-- Two quads glued along an edge (faces 0 and 1 are adjacent). -/
def c2MeshA : Mesh where
  numVertices := 6
  numEdges := 7
  numPolygons := 2
  numUVs := 0
  edgeVerts := fun _ => (0, 0)
  faceVertList := fun f => if f = 0 then [0, 1, 2, 3] else [1, 4, 5, 2]
  faceEdgeList := fun f => if f = 0 then [0, 1, 2, 3] else [4, 5, 6, 1]
  uvOwner := fun _ => 0
  onBoundaryFaceB := fun _ => true
  onBoundaryEdgeB := fun _ => true
  faceAdj := fun f => if f = 0 then {1} else if f = 1 then {0} else ∅
  uvShellIds := fun _ => 0
  uvShellCount := 0
  borderConvert := fun _ _ s => s

/-- C2 counterexample: the component holds only face 0, but the single
shell `mesh_shells` yields is the whole-mesh shell {0,1} — the flood fill
crossed to face 1, which lies outside the component's face set. -/
theorem mesh_shells_crosses_outside_counterexample :
    mesh_shells c2MeshA ⟨Kind.Face, 0, {0}⟩ =
        Except.ok [⟨Kind.Face, 0, ({0, 1} : Finset Nat)⟩] ∧
      ¬ (1 : Nat) ∈ convPlain c2MeshA Kind.Face Kind.Face ({0} : Finset Nat) ∧
      (1 : Nat) ∈ (⟨Kind.Face, 0, ({0, 1} : Finset Nat)⟩ : Component).indices := by
  decide

/-- c2MeshA plus an isolated third face. -/
def c2MeshB : Mesh where
  numVertices := 10
  numEdges := 11
  numPolygons := 3
  numUVs := 0
  edgeVerts := fun _ => (0, 0)
  faceVertList := fun f => if f = 0 then [0, 1, 2, 3] else if f = 1 then [1, 4, 5, 2]
    else [6, 7, 8, 9]
  faceEdgeList := fun f => if f = 0 then [0, 1, 2, 3] else if f = 1 then [4, 5, 6, 1]
    else [7, 8, 9, 10]
  uvOwner := fun _ => 0
  onBoundaryFaceB := fun _ => true
  onBoundaryEdgeB := fun _ => true
  faceAdj := fun f => if f = 0 then {1} else if f = 1 then {0} else ∅
  uvShellIds := fun _ => 0
  uvShellCount := 0
  borderConvert := fun _ _ s => s

/-- C2 witness: faces {0,2} discover two shells, in order: the whole-mesh
shell {0,1} of face 0, then {2}. -/
theorem mesh_shells_whole_mesh_cover_witness :
    mesh_shells c2MeshB ⟨Kind.Face, 0, {0, 2}⟩ =
        Except.ok [⟨Kind.Face, 0, ({0, 1} : Finset Nat)⟩,
          ⟨Kind.Face, 0, ({2} : Finset Nat)⟩] ∧
      (convPlain c2MeshB Kind.Face Kind.Face ({0, 2} : Finset Nat) ⊆
          unionFinsets (mesh_shells_faces c2MeshB
            (convPlain c2MeshB Kind.Face Kind.Face ({0, 2} : Finset Nat))) ∧
        (∀ s ∈ mesh_shells_faces c2MeshB
            (convPlain c2MeshB Kind.Face Kind.Face ({0, 2} : Finset Nat)),
          ∃ f ∈ convPlain c2MeshB Kind.Face Kind.Face ({0, 2} : Finset Nat),
            s = polySelectETS c2MeshB f) ∧
        List.Forall₂ (fun (s : Finset Nat) (comp : Component) =>
            comp.kind = (⟨Kind.Face, 0, ({0, 2} : Finset Nat)⟩ : Component).kind ∧
            comp.dag = (⟨Kind.Face, 0, ({0, 2} : Finset Nat)⟩ : Component).dag ∧
            comp.indices =
              (if (⟨Kind.Face, 0, ({0, 2} : Finset Nat)⟩ : Component).kind = Kind.Face
                then s
                else convPlain c2MeshB Kind.Face
                  (⟨Kind.Face, 0, ({0, 2} : Finset Nat)⟩ : Component).kind s))
          (mesh_shells_faces c2MeshB
            (convPlain c2MeshB Kind.Face Kind.Face ({0, 2} : Finset Nat)))
          [⟨Kind.Face, 0, ({0, 1} : Finset Nat)⟩,
            ⟨Kind.Face, 0, ({2} : Finset Nat)⟩]) := by
  refine ⟨by decide, ?_⟩
  exact mesh_shells_whole_mesh_cover c2MeshB ⟨Kind.Face, 0, {0, 2}⟩
    [⟨Kind.Face, 0, ({0, 1} : Finset Nat)⟩, ⟨Kind.Face, 0, ({2} : Finset Nat)⟩]
    (by decide)

/-- A single segment: two vertices joined by one edge. -/
def c3Mesh : Mesh where
  numVertices := 2
  numEdges := 1
  numPolygons := 0
  numUVs := 0
  edgeVerts := fun _ => (0, 1)
  faceVertList := fun _ => []
  faceEdgeList := fun _ => []
  uvOwner := fun _ => 0
  onBoundaryFaceB := fun _ => false
  onBoundaryEdgeB := fun _ => true
  faceAdj := fun _ => ∅
  uvShellIds := fun _ => 0
  uvShellCount := 0
  borderConvert := fun _ _ _ => ∅

/-- C3: a conversion whose provider output is empty — the single vertex 0
converted to Edge with `internal=true` (no edge has both endpoints in {0}) —
makes `convert_to` raise from `MSelectionList.getComponent(0)` on the empty
list, instead of returning an empty Component as the spec states. -/
theorem convert_to_empty_result_raises :
    convert_to c3Mesh ⟨Kind.Vert, 0, {0}⟩ Kind.Edge true false =
      Except.error "getComponent: kInvalidParameter (index out of range)" := by
  decide

/-- One quad face whose four edges all lie on the mesh boundary. -/
def c4Mesh : Mesh where
  numVertices := 4
  numEdges := 4
  numPolygons := 1
  numUVs := 0
  edgeVerts := fun e => if e = 0 then (0, 1) else if e = 1 then (1, 2)
    else if e = 2 then (2, 3) else (3, 0)
  faceVertList := fun _ => [0, 1, 2, 3]
  faceEdgeList := fun _ => [0, 1, 2, 3]
  uvOwner := fun _ => 0
  onBoundaryFaceB := fun _ => true
  onBoundaryEdgeB := fun _ => true
  faceAdj := fun _ => ∅
  uvShellIds := fun _ => 0
  uvShellCount := 0
  borderConvert := fun _ _ s => s

/-- C4 witness: the border-recovery theorem instantiated on the quad. -/
theorem to_edge_border_recovers_witness :
    (⟨Kind.Face, 0, {0}⟩ : Component).kind = Kind.Face ∧
      to_edge c4Mesh ⟨Kind.Face, 0, {0}⟩ false true true =
        Except.ok ⟨Kind.Edge, 0, ({0, 1, 2, 3} : Finset Nat)⟩ ∧
      (∀ f ∈ (⟨Kind.Face, 0, ({0} : Finset Nat)⟩ : Component).indices,
        c4Mesh.onBoundaryFaceB f = true →
        ∀ e ∈ faceEdgeSet c4Mesh f, c4Mesh.onBoundaryEdgeB e = true →
          e ∈ (⟨Kind.Edge, 0, ({0, 1, 2, 3} : Finset Nat)⟩ : Component).indices) := by
  refine ⟨rfl, by decide, ?_⟩
  exact to_edge_border_recovers_boundary_edges c4Mesh ⟨Kind.Face, 0, {0}⟩ false true
    ⟨Kind.Edge, 0, ({0, 1, 2, 3} : Finset Nat)⟩ rfl (by decide)

/-- Four UV points in two shells: ids [0,0,0,1]. -/
def c5Mesh : Mesh where
  numVertices := 4
  numEdges := 0
  numPolygons := 0
  numUVs := 4
  edgeVerts := fun _ => (0, 0)
  faceVertList := fun _ => []
  faceEdgeList := fun _ => []
  uvOwner := fun u => u
  onBoundaryFaceB := fun _ => false
  onBoundaryEdgeB := fun _ => false
  faceAdj := fun _ => ∅
  uvShellIds := fun u => if u ≤ 2 then 0 else 1
  uvShellCount := 2
  borderConvert := fun _ _ _ => ∅

/-- C5 witness: a single UV point of shell 0 wants exactly {0}, and its
entry holds the whole shell {0,1,2} — size 3, not 1. -/
theorem map_shells_touched_ids_witness :
    (⟨Kind.Map, 0, {0}⟩ : Component).kind = Kind.Map ∧
      is_complete c5Mesh ⟨Kind.Map, 0, {0}⟩ = false ∧
      (map_shells_wanted c5Mesh ⟨Kind.Map, 0, {0}⟩ =
          (({0} : Finset Nat)).image c5Mesh.uvShellIds ∧
        (∀ sid ∈ map_shells_wanted c5Mesh ⟨Kind.Map, 0, {0}⟩, ∀ u, u < c5Mesh.numUVs →
          (u ∈ (map_shells_entry c5Mesh ⟨Kind.Map, 0, {0}⟩ sid).indices ↔
            c5Mesh.uvShellIds u = sid)) ∧
        (∀ i ∈ (⟨Kind.Map, 0, ({0} : Finset Nat)⟩ : Component).indices, i < c5Mesh.numUVs →
          i ∈ (map_shells_entry c5Mesh ⟨Kind.Map, 0, {0}⟩
            (c5Mesh.uvShellIds i)).indices)) ∧
      (map_shells_entry c5Mesh ⟨Kind.Map, 0, {0}⟩ 0).indices.card = 3 := by
  refine ⟨rfl, by decide, ?_, by decide⟩
  exact map_shells_touched_ids_whole_shell c5Mesh ⟨Kind.Map, 0, {0}⟩ rfl (by decide)

/-- A bare mesh with three vertices (used for the toggle claims). -/
def c6Mesh : Mesh where
  numVertices := 3
  numEdges := 0
  numPolygons := 0
  numUVs := 0
  edgeVerts := fun _ => (0, 0)
  faceVertList := fun _ => []
  faceEdgeList := fun _ => []
  uvOwner := fun _ => 0
  onBoundaryFaceB := fun _ => false
  onBoundaryEdgeB := fun _ => false
  faceAdj := fun _ => ∅
  uvShellIds := fun _ => 0
  uvShellCount := 0
  borderConvert := fun _ _ _ => ∅

/-- C6 witness: the involution instantiated on two same-mesh vertex
components. -/
theorem toggle_involution_witness :
    (⟨Kind.Vert, 0, {1, 2}⟩ : Component).dag = (⟨Kind.Vert, 0, {0, 1}⟩ : Component).dag ∧
      (⟨Kind.Vert, 0, {1, 2}⟩ : Component).kind =
        (⟨Kind.Vert, 0, {0, 1}⟩ : Component).kind ∧
      (((toggle c6Mesh ⟨Kind.Vert, 0, {0, 1}⟩ (some ⟨Kind.Vert, 0, {1, 2}⟩)).bind
          (fun c1 => toggle c6Mesh c1 (some ⟨Kind.Vert, 0, {1, 2}⟩))) =
            some ⟨Kind.Vert, 0, {0, 1}⟩ ∧
        ((toggle c6Mesh ⟨Kind.Vert, 0, {0, 1}⟩ none).bind
          (fun c1 => toggle c6Mesh c1 none)) = some ⟨Kind.Vert, 0, {0, 1}⟩) := by
  refine ⟨rfl, rfl, ?_⟩
  exact toggle_involution c6Mesh ⟨Kind.Vert, 0, {0, 1}⟩ ⟨Kind.Vert, 0, {1, 2}⟩ rfl rfl

/-- C7 counterexample: vertex 0 of the boundary segment: the code's
`is_border` (plain conversion) answers true, while the claim's
internal-conversion formula answers false — the two disagree. -/
theorem is_border_internal_claim_counterexample :
    is_border c3Mesh ⟨Kind.Vert, 0, {0}⟩ 0 = Except.ok true ∧
      is_border_claim c3Mesh ⟨Kind.Vert, 0, {0}⟩ 0 = false := by
  decide

/-- C7 witness: the amended characterisation instantiated on the segment. -/
theorem is_border_vert_plain_witness :
    ((⟨Kind.Vert, 0, {0}⟩ : Component).kind = Kind.Vert ∨
        (⟨Kind.Vert, 0, {0}⟩ : Component).kind = Kind.Map) ∧
      is_border c3Mesh ⟨Kind.Vert, 0, {0}⟩ 0 = Except.ok true ∧
      (true = true ↔ ∃ e ∈ convPlain c3Mesh
          (⟨Kind.Vert, 0, ({0} : Finset Nat)⟩ : Component).kind Kind.Edge ({0} : Finset Nat),
        c3Mesh.onBoundaryEdgeB e = true) := by
  refine ⟨Or.inl rfl, by decide, ?_⟩
  exact is_border_vert_plain_characterisation c3Mesh ⟨Kind.Vert, 0, {0}⟩ 0 true
    (Or.inl rfl) (by decide)

/-- C8 counterexample: toggling a component against one bound to another
dagpath returns `None`, not a Component. -/
theorem toggle_mixed_mesh_none_counterexample :
    toggle c6Mesh ⟨Kind.Vert, 0, {0}⟩ (some ⟨Kind.Vert, 1, {0}⟩) = none := by
  decide

/-- C8 witness: the amended theorem instantiated on two components with
different dagpaths. -/
theorem toggle_mixed_mesh_returns_none_witness :
    ¬ (⟨Kind.Vert, 0, {0}⟩ : Component).dag = (⟨Kind.Vert, 1, {0}⟩ : Component).dag ∧
      toggle c6Mesh ⟨Kind.Vert, 0, {0}⟩ (some ⟨Kind.Vert, 1, {0}⟩) = none := by
  refine ⟨by decide, ?_⟩
  exact toggle_mixed_mesh_returns_none c6Mesh ⟨Kind.Vert, 0, {0}⟩ ⟨Kind.Vert, 1, {0}⟩
    (by decide)

/-- C9 counterexample: a call requesting flattened output with an explicit
`merge=True` keyword, while tracking is enabled, builds with merging
enabled — the claim's "merging is disabled" fails. -/
theorem from_ls_merge_override_counterexample :
    need_ordered_selection_set ⟨true, false, false, false, some true⟩ = true ∧
      from_ls true ⟨true, false, false, false, some true⟩ = Except.ok true ∧
      ¬ from_ls true ⟨true, false, false, false, some true⟩ = Except.ok false := by
  decide

/-- C9 witness: the amended behaviour instantiated: with `fl` present and no
explicit merge keyword, tracking off raises and tracking on disables
merging. -/
theorem from_ls_ordered_selection_witness :
    need_ordered_selection_set ⟨true, false, false, false, none⟩ = true ∧
      ((false = false →
          from_ls false ⟨true, false, false, false, none⟩ =
            Except.error LsError.orderedSelectionsNotSet) ∧
        (false = true → (⟨true, false, false, false, none⟩ : LsKw).merge = none →
          from_ls false ⟨true, false, false, false, none⟩ = Except.ok false)) := by
  refine ⟨by decide, ?_⟩
  exact from_ls_ordered_selection_behaviour false ⟨true, false, false, false, none⟩
    (by decide)

end Mampy
